import Mathlib

/-!
# sloc: a verification development

A shallow embedding of `main.go` (the sloc line counter) and theorems about
its language registry, file classifier, directory filter, line counter,
aggregator and report.

Modelling conventions.

* A Go `string` is modelled as a list of Unicode code points (`Str`); the text
  is taken to be valid UTF-8, so that `strings.Fields`, which decodes runes,
  sees exactly these code points. `len` is the UTF-8 byte length, as in Go.
* Go's `int` counters are modelled as `Nat`: they start at zero and are only
  incremented, and a per-file character count is bounded by the file size;
  totals are taken to stay below `2 ^ 63`, so no wrap-around is modelled.
  `commaInt` takes an `Int`, as `strconv.Itoa` does.
* A run-time panic (integer division by zero) is the result `none`.
* The `bufio.Scanner` of `countFile` is modelled by `scanLines`: split at newlines, one
  terminal carriage return dropped, and the silent stop at a line that fills the buffer
  of `bufio.MaxScanTokenSize` bytes. Reads of an opened file are taken to succeed.
* Goroutines are modelled by a step relation: a state holds the number of elements of
  the channel `fdSem` and, for each running call of `countDir` or `countFile`, the
  statements it still has to execute; a run is any sequence of enabled steps.
* A Go `map` is modelled by the list of its entries. A `range` loop over a map
  visits the entries in an unspecified order, so every function that ranges
  over a map takes the sequence `ord` in which the entries are visited; the
  theorems quantify over every permutation of the map.
* Library functions (`strings.Fields`, `strings.HasSuffix`, `strings.Contains`,
  `strings.HasPrefix`) are modelled by their documented meaning.
  `strings.ToLower` is rune-wise `unicode.ToLower`, a library table that is
  taken as a parameter `lr : Char → Char`; `path.Join` is a parameter too.
-/

namespace Sloc

/-! ## Strings -/

/-- A Go string, as the sequence of its code points. -/
abbrev Str := List Char

/-- Go `len(s)`: the number of bytes of the UTF-8 encoding of `s`. -/
def len (s : Str) : Nat := (s.map Char.utf8Size).sum

/-- Go `unicode.IsSpace`: the Unicode White_Space property. -/
def isSpace (c : Char) : Bool :=
  let n := c.toNat
  (0x09 ≤ n && n ≤ 0x0D) || n == 0x20 || n == 0x85 || n == 0xA0 || n == 0x1680 ||
  (0x2000 ≤ n && n ≤ 0x200A) || n == 0x2028 || n == 0x2029 || n == 0x202F ||
  n == 0x205F || n == 0x3000

/-- The scanning loop of `strings.Fields`: `cur` is the field being read, reversed. -/
def fieldsGo : Str → Str → List Str
  | [], cur => if cur.isEmpty then [] else [cur.reverse]
  | c :: cs, cur =>
    if isSpace c then
      if cur.isEmpty then fieldsGo cs [] else cur.reverse :: fieldsGo cs []
    else fieldsGo cs (c :: cur)

/-- Go `strings.Fields`: the maximal runs of non-space code points, in order. -/
def Fields (s : Str) : List Str := fieldsGo s []

/-- Go `strings.HasPrefix(s, pre)`. -/
def HasPrefix (s pre : Str) : Bool := pre.isPrefixOf s

/-- Go `strings.HasSuffix(s, suf)`. -/
def HasSuffix (s suf : Str) : Bool := suf.isSuffixOf s

/-- Go `strings.Contains(s, sub)`: `sub` occurs at some offset of `s`. -/
def Contains : Str → Str → Bool
  | [], sub => sub.isEmpty
  | c :: cs, sub => sub.isPrefixOf (c :: cs) || Contains cs sub

/-- Go `strings.ToLower`, rune by rune with the rune mapping `lr`. -/
def ToLower (lr : Char → Char) (s : Str) : Str := s.map lr

/-- Lower-casing of the ASCII letters, every other code point unchanged. -/
def asciiLower (c : Char) : Char :=
  if 65 ≤ c.toNat ∧ c.toNat ≤ 90 then Char.ofNat (c.toNat + 32) else c

/-! ## Data model -/

/-- The struct `lang`. -/
structure lang where
  Name : Str := []
  Filetypes : List Str := []
  Comment : List Str := []
  IgnoreIfOnly : List Str := []
  FilenameIgnore : List Str := []
  DirectoryIgnore : List Str := []
  TestFilename : List Str := []
  TestDirname : List Str := []
  deriving DecidableEq, Repr, Inhabited

/-- The struct `count`. -/
structure count where
  LineCount : Nat := 0
  CharCount : Nat := 0
  FileCount : Nat := 0
  deriving DecidableEq, Repr, Inhabited

/-- The entries of a `map[string]lang`. -/
abbrev Registry := List (Str × lang)

/-- The entries of a `map[string]count`. -/
abbrev Counters := List (Str × count)

/-- The map invariant: no key occurs twice. -/
def NodupKeys {β : Type} (m : List (Str × β)) : Prop := (m.map Prod.fst).Nodup

/-- Go `m[k]` on a `map[string]lang`: the zero value when `k` is absent. -/
def getLang (m : Registry) (k : Str) : lang :=
  match m.find? (fun e => e.1 == k) with
  | some e => e.2
  | none => {}

/-- Go `delete(m, k)`. -/
def delete {β : Type} (m : List (Str × β)) (k : Str) : List (Str × β) :=
  m.filter (fun e => e.1 != k)

/-- Go `m[k] = v`. -/
def setKey {β : Type} (m : List (Str × β)) (k : Str) (v : β) : List (Str × β) :=
  if m.any (fun e => e.1 == k) then m.map (fun e => if e.1 == k then (k, v) else e)
  else m ++ [(k, v)]

/-- The variable `commonIgnore`. -/
def commonIgnore : List Str :=
  ["\x7d".toList, "\x7b".toList, ")".toList, "\x7d,".toList, "),".toList, "[".toList, "]".toList,
   "],".toList]

/-- The variable `languages` as initialised, entries in source order. -/
def languages : Registry :=
  [ ("Python".toList,
      { Filetypes := [".py".toList], Comment := ["#".toList], IgnoreIfOnly := commonIgnore,
        TestFilename := ["test_".toList], TestDirname := ["test".toList],
        DirectoryIgnore := ["venv".toList, "egg-info".toList] }),
    ("Go".toList,
      { Filetypes := [".go".toList], Comment := ["//".toList], IgnoreIfOnly := commonIgnore,
        DirectoryIgnore := ["vendor".toList], TestFilename := ["_test".toList] }),
    ("Ruby".toList,
      { Filetypes := [".rb".toList], Comment := ["#".toList],
        IgnoreIfOnly := commonIgnore ++ ["end".toList],
        DirectoryIgnore := ["vendor".toList], TestDirname := ["spec".toList],
        TestFilename := ["_spec".toList] }),
    ("C".toList,
      { Filetypes := [".c".toList, ".h".toList, ".cc".toList], Comment := ["//".toList],
        IgnoreIfOnly := commonIgnore, TestDirname := ["test".toList] }),
    ("C++".toList,
      { Filetypes := [".cpp".toList, ".hpp".toList], Comment := ["//".toList],
        IgnoreIfOnly := commonIgnore, TestDirname := ["test".toList] }),
    ("C#".toList,
      { Filetypes := [".cs".toList], Comment := ["//".toList],
        IgnoreIfOnly := commonIgnore, TestDirname := ["test".toList] }),
    ("JavaScript".toList,
      { Filetypes := [".js".toList], Comment := ["//".toList],
        IgnoreIfOnly := commonIgnore, TestDirname := ["test".toList] }),
    ("JSON".toList,
      { Filetypes := [".json".toList], IgnoreIfOnly := commonIgnore }),
    ("Java".toList,
      { Filetypes := [".java".toList], Comment := ["//".toList],
        IgnoreIfOnly := commonIgnore, TestDirname := ["test".toList] }),
    ("YAML".toList,
      { Filetypes := [".yml".toList], Comment := ["#".toList], IgnoreIfOnly := commonIgnore }),
    ("HTML".toList, { Filetypes := [".html".toList] }),
    ("CSS".toList, { Filetypes := [".css".toList, ".scss".toList] }),
    ("Shell".toList,
      { Filetypes := [".sh".toList], Comment := ["#".toList], IgnoreIfOnly := commonIgnore }),
    ("Powershell".toList, { Filetypes := [".ps1".toList] }),
    ("Rust".toList,
      { Comment := ["//".toList], IgnoreIfOnly := commonIgnore, Filetypes := [".rs".toList],
        TestDirname := ["test".toList] }) ]

/-! ## Line counter -/

/-- The function `isEmpty`. -/
def isEmpty (line : Str) : Bool := (Fields line).length == 0

/-- The function `isComment`: the loop evaluates `strings.HasPrefix` on the first
field and drops the result; every path returns `false`. -/
def isComment (l : lang) (line : Str) : Bool :=
  if l.Comment.length == 0 then false
  else
    match Fields line with
    | [] => false
    | f0 :: _ =>
      l.Comment.foldl (fun (r : Bool) commentStart =>
        let _discarded := HasPrefix f0 commentStart
        r) false

/-- The function `isIgnoreIfOnly`. -/
def isIgnoreIfOnly (l : lang) (line : Str) : Bool :=
  if l.IgnoreIfOnly.length == 0 then false
  else
    match Fields line with
    | [] => false
    | f0 :: _ => l.IgnoreIfOnly.any (fun ignoreIfOnly => f0 == ignoreIfOnly || line == ignoreIfOnly)

/-- The function `ignoreLine`. -/
def ignoreLine (l : lang) (line : Str) : Bool :=
  isEmpty line || isComment l line || isIgnoreIfOnly l line

/-- One iteration of the scanning loop of `countFile`, on the pair
`(lineCount, charCount)`. -/
def countStep (l : lang) (acc : Nat × Nat) (line : Str) : Nat × Nat :=
  if ignoreLine l line then acc else (acc.1 + 1, acc.2 + len line)

/-- The scanning loop of `countFile` over the texts that the scanner returns (for a file
with a given content these are `scanLines content`, defined below), from
`lineCount = 0`, `charCount = 0`. -/
def countLines (l : lang) (lines : List Str) : Nat × Nat :=
  lines.foldl (countStep l) (0, 0)

/-! ## File classifier and directory filter -/

/-- The function `isSourceFile`; `ord` is the order in which the `range` loop visits
the entries of `languages`. -/
def isSourceFile : Registry → Str → Bool × Str
  | [], _ => (false, [])
  | (langName, l) :: rest, filePath =>
    if l.Filetypes.any (fun fileSuffix => HasSuffix filePath fileSuffix) then (true, langName)
    else isSourceFile rest filePath

/-- The function `ignoreDir`, with the globals `languages` and `noTest` as arguments. -/
def ignoreDir (languages : Registry) (noTest : Bool) (dirPath langName : Str) : Bool :=
  if (getLang languages langName).DirectoryIgnore.any (fun ignoreDir => Contains dirPath ignoreDir)
  then true
  else if noTest &&
      (getLang languages langName).TestDirname.any (fun ignoreFile => Contains dirPath ignoreFile)
  then true
  else false

/-- The function `ignoreFile`, with the globals `languages` and `noTest` as arguments. -/
def ignoreFile (languages : Registry) (noTest : Bool) (fileName langName : Str) : Bool :=
  if (getLang languages langName).FilenameIgnore.any (fun ignoreFile => Contains fileName ignoreFile)
  then true
  else if noTest &&
      (getLang languages langName).TestFilename.any (fun ignoreFile => Contains fileName ignoreFile)
  then true
  else false

/-- An entry of a directory listing: `f.Name()` and `f.IsDir()`. -/
structure FileInfo where
  Name : Str
  IsDir : Bool
  deriving DecidableEq, Repr, Inhabited

/-- What the loop of `countDir` starts for an entry: a recursive `countDir` on a
sub-directory, or a `countFile` task on a path with its language. -/
inductive Task where
  | dir (filePath : Str)
  | file (filePath langName : Str)
  deriving DecidableEq, Repr, Inhabited

/-- The body of the loop of `countDir` for one entry `f` of the listing of `dirPath`:
`none` is the `continue` branch. `join` is `path.Join`, `ord` the order in which this
call of `isSourceFile` visits the registry. -/
def countDirEntry (languages ord : Registry) (noTest : Bool) (join : Str → Str → Str)
    (dirPath : Str) (f : FileInfo) : Option Task :=
  let filePath := join dirPath f.Name
  if f.IsDir then some (Task.dir filePath)
  else
    let r := isSourceFile ord filePath
    if !r.1 || ignoreDir languages noTest dirPath r.2 || ignoreFile languages noTest f.Name r.2
    then none
    else some (Task.file filePath r.2)

/-! ## Registry restriction and start-up -/

/-- The function `removeOtherLangs`: the loop visits the entries in the order `ord` and
deletes from `languages` each visited key whose lower-casing differs from that of
`keepLang`. -/
def removeOtherLangs (lr : Char → Char) (languages ord : Registry) (keepLang : Str) : Registry :=
  let keepLang := ToLower lr keepLang
  ord.foldl (fun m e => if ToLower lr e.1 != keepLang then delete m e.1 else m) languages

/-- The first statement of `main` after flag parsing: the registry is restricted when
`onlyLang` is not the empty string. -/
def restrictRegistry (lr : Char → Char) (languages ord : Registry) (onlyLang : Str) : Registry :=
  if onlyLang != [] then removeOtherLangs lr languages ord onlyLang else languages

/-- The loop of `main` that fills the empty map `counters` with a zero `count` for each
key of `languages`, visited in the order `ord`. -/
def initCounters (ord : Registry) : Counters :=
  ord.foldl (fun m e => setKey m e.1 {}) []

/-- A registry with the test markers of every rule emptied (used to state what
"test markers are not honoured" means). -/
def withoutTestMarkers (m : Registry) : Registry :=
  m.map (fun e => (e.1, { e.2 with TestFilename := [], TestDirname := [] }))

/-- Some extension of the rule is a suffix of the path. -/
def hasExt (l : lang) (filePath : Str) : Bool :=
  l.Filetypes.any (fun fileSuffix => HasSuffix filePath fileSuffix)

/-! ## Aggregator -/

/-- Go `m[k]` on a `map[string]count`: the zero value when `k` is absent. -/
def getCount (m : Counters) (k : Str) : count :=
  match m.find? (fun e => e.1 == k) with
  | some e => e.2
  | none => {}

/-- The locked section of `countFile`: read `counters[langName]`, add the tally of the
file, add one file, write the entry back. -/
def updateCounters (counters : Counters) (langName : Str) (lineCount charCount : Nat) :
    Counters :=
  let l := getCount counters langName
  let l := { l with LineCount := l.LineCount + lineCount }
  let l := { l with CharCount := l.CharCount + charCount }
  let l := { l with FileCount := l.FileCount + 1 }
  setKey counters langName l

/-- The function `countFile` on a file that opens and whose scanner returns `lines`: the
scanning loop under the rule `languages[langName]`, then the update of `counters`. -/
def countFile (languages : Registry) (counters : Counters) (langName : Str)
    (lines : List Str) : Counters :=
  let t := countLines (getLang languages langName) lines
  updateCounters counters langName t.1 t.2

/-- The per-file results `(language, lineCount, charCount)` folded into `counters` in the
order in which the `countFile` tasks reach the locked section. -/
def foldResults (counters : Counters) (rs : List (Str × Nat × Nat)) : Counters :=
  rs.foldl (fun c r => updateCounters c r.1 r.2.1 r.2.2) counters

/-- The files `(language, lines)` counted by `countFile` one after the other. -/
def foldFiles (languages : Registry) (counters : Counters) (fs : List (Str × List Str)) :
    Counters :=
  fs.foldl (fun c f => countFile languages c f.1 f.2) counters

/-! ## Report -/

/-- Go `strconv.Itoa`: the decimal digits, with a leading minus sign below zero. -/
def Itoa (num : Int) : Str :=
  match num with
  | Int.ofNat n => Nat.toDigits 10 n
  | Int.negSucc n => '-' :: Nat.toDigits 10 (n + 1)

/-- The loop of `commaInt`: `i` is the byte offset of the code point `c` in `sNum`, `res`
the string built so far; `%` is Go's truncated remainder. -/
def commaLoop (offset : Int) : Int → Str → Str → Str
  | _, [], res => res
  | i, c :: cs, res =>
    let res := if i > 0 ∧ Int.tmod (i - offset) 3 = 0 then res ++ [','] else res
    commaLoop offset (i + c.utf8Size) cs (res ++ [c])

/-- The function `commaInt`. -/
def commaInt (num : Int) : Str :=
  let sNum := Itoa num
  let offset : Int := len sNum % 3
  commaLoop offset 0 sNum []

/-- Go integer division `a / b` on non-negative operands: `none` is the run-time panic
on a zero divisor. -/
def goDiv (a b : Nat) : Option Nat := if b = 0 then none else some (a / b)

/-- The loop of `printResult` over the entries of `counters` in the visited order: for
each entry with `LineCount != 0` the five printed numbers, and the three totals. `none`
is a division panic. -/
def printLoop : Counters → List (Str × List Str) × Nat × Nat × Nat →
    Option (List (Str × List Str) × Nat × Nat × Nat)
  | [], acc => some acc
  | (name, l) :: rest, (rows, totalLines, totalChars, totalFiles) =>
    if l.LineCount == 0 then printLoop rest (rows, totalLines, totalChars, totalFiles)
    else
      match goDiv l.CharCount l.LineCount, goDiv l.LineCount l.FileCount with
      | some cpl, some lpf =>
        printLoop rest
          (rows ++ [(name, [commaInt l.LineCount, commaInt l.CharCount, commaInt l.FileCount,
              commaInt cpl, commaInt lpf])],
           totalLines + l.LineCount, totalChars + l.CharCount, totalFiles + l.FileCount)
      | _, _ => none

/-- The function `printResult`: the rows printed per language and the three total
lines. -/
def printResult (ord : Counters) : Option (List (Str × List Str) × List Str) :=
  match printLoop ord ([], 0, 0, 0) with
  | some (rows, totalLines, totalChars, totalFiles) =>
    some (rows, [commaInt totalLines, commaInt totalChars, commaInt totalFiles])
  | none => none

/-- The sums that the results for the language `n` contribute. -/
def tallyFor (rs : List (Str × Nat × Nat)) (n : Str) : count :=
  { LineCount := ((rs.filter (fun r => r.1 == n)).map (fun r => r.2.1)).sum
    CharCount := ((rs.filter (fun r => r.1 == n)).map (fun r => r.2.2)).sum
    FileCount := (rs.filter (fun r => r.1 == n)).length }

/-- The ten decimal digit characters. -/
def digitChars : List Char := "0123456789".toList

/-- The text that the loop of `commaInt` appends from the character at index `i` on,
for a string of one-byte characters and an offset below three: a comma goes before the
index `i` when `i > 0` and `i - offset` is a multiple of three. -/
def commaOut (offset : Nat) : Nat → Str → Str
  | _, [] => []
  | i, c :: cs =>
    (if 0 < i ∧ (i + 3 - offset) % 3 = 0 then [','] else []) ++ c :: commaOut offset (i + 1) cs

/-! ## Scanner -/

/-- The constant `bufio.MaxScanTokenSize`, the buffer limit of a `bufio.Scanner` made by
`bufio.NewScanner`. -/
def MaxScanTokenSize : Nat := 64 * 1024

/-- The function `dropCR` of package `bufio`: one terminal carriage return is dropped. -/
def dropCR (data : Str) : Str :=
  if data.getLast? = some '\r' then data.dropLast else data

/-- The texts returned by `scanner.Text()` over the successive calls of `scanner.Scan()`
that return `true`, for a scanner with split function `bufio.ScanLines` on a file with
the given content; `cur` is the line being read, reversed. A line runs to the next
newline or to the end of the file (an empty rest after the last newline is no line), and
`ScanLines` returns it without the newline and without one terminal carriage return.
When the bytes before the newline (or before the end of the file) fill the buffer of
`maxTokenSize` bytes, `Scan` sets `ErrTooLong` and returns `false`: the loop of
`countFile` ends there, and `scanner.Err()` is never read. -/
def scanGo (maxTokenSize : Nat) : Str → Str → List Str
  | [], cur =>
    if cur.isEmpty then [] else if maxTokenSize ≤ len cur.reverse then []
    else [dropCR cur.reverse]
  | c :: cs, cur =>
    if c = '\n' then
      if maxTokenSize ≤ len cur.reverse then [] else dropCR cur.reverse :: scanGo maxTokenSize cs []
    else scanGo maxTokenSize cs (c :: cur)

/-- The lines that the scanner of `countFile` returns for a file with this content. -/
def scanLines (content : Str) : List Str := scanGo MaxScanTokenSize content []

/-- The scanning part of `countFile` on the content of the opened file: the scanner, then
the loop over its lines, giving `(lineCount, charCount)`. -/
def scanTally (l : lang) (content : Str) : Nat × Nat := countLines l (scanLines content)

/-- Following the spec (a line is text delimited by a newline, no line-length limit), the
lines that make up a file: `cur` is the line being read, reversed. -/
def fileLinesGo : Str → Str → List Str
  | [], cur => if cur.isEmpty then [] else [cur.reverse]
  | c :: cs, cur =>
    if c = '\n' then cur.reverse :: fileLinesGo cs [] else fileLinesGo cs (c :: cur)

/-- Following the spec, the lines that make up a file, each without its newline. -/
def fileLines (content : Str) : List Str := fileLinesGo content []

/-- Following the claim, the tally over a sequence of lines: the number of lines on which
`ignoreLine` is false and the sum of their byte lengths. -/
def linesTally (l : lang) (lines : List Str) : Nat × Nat :=
  ((lines.filter (fun x => !ignoreLine l x)).length,
   ((lines.filter (fun x => !ignoreLine l x)).map len).sum)

/-- A line of 70000 bytes. -/
def longLine : Str := List.replicate 70000 'a'

/-- A file of three lines, each ended by a newline, whose second line is `longLine`. -/
def longLineFile : Str :=
  "a := 1".toList ++ '\n' :: (longLine ++ '\n' :: ("b := 2".toList ++ ['\n']))

/-! ## Permits and handles -/

/-- The constant `maxFd`, the capacity of the channel `fdSem`. -/
def maxFd : Nat := 10

/-- The statements of `countDir` and `countFile` that touch `fdSem` or a file-system
handle. -/
inductive Instr where
  | acquire
  | openHandle
  | closeHandle
  | release
  deriving DecidableEq, Repr, Inhabited

/-- The function `countDir`, as far as permits and handles go: `fdSem <- struct{}{}`,
then `ioutil.ReadDir`, which opens the directory and closes it before it returns, then
`<-fdSem`. The loop over the entries comes after the release and holds no handle. -/
def countDirCode : List Instr :=
  [Instr.acquire, Instr.openHandle, Instr.closeHandle, Instr.release]

/-- The function `countFile`, as far as permits and handles go: `fdSem <- struct{}{}`,
`os.Open`, the scanning loop on the open file, `file.Close()`, `<-fdSem`. The update of
`counters` comes after the release. -/
def countFileCode : List Instr :=
  [Instr.acquire, Instr.openHandle, Instr.closeHandle, Instr.release]

/-- A running call of `countDir` or `countFile`: the statements still to execute, the
handles it has open, and the permits it has sent to `fdSem` and not yet received back. -/
structure Thread where
  code : List Instr
  handles : Nat
  permits : Nat
  deriving DecidableEq, Repr, Inhabited

/-- The state of a run: the number of elements in the channel `fdSem` and the calls of
`countDir` and `countFile` made so far. -/
structure Conc where
  sem : Nat
  threads : List Thread
  deriving DecidableEq, Repr, Inhabited

/-- What can happen next in a run: the loop of `countDir` calls `countDir` on a
sub-directory or starts `go countFile`, or the call at index `i` executes its next
statement. Scheduling is arbitrary: any event may follow any state. -/
inductive Event where
  | callCountDir
  | goCountFile
  | exec (i : Nat)
  deriving DecidableEq, Repr, Inhabited

/-- One statement executed by a call. A send on `fdSem` proceeds only while the channel
holds fewer than `maxFd` elements and a receive only while it is not empty (otherwise
the goroutine blocks: `none`); a failed `ReadDir` or `os.Open` ends the process and with
it the run. -/
def execInstr (sem : Nat) (t : Thread) : Option (Nat × Thread) :=
  match t.code with
  | [] => none
  | Instr.acquire :: rest =>
    if sem < maxFd then some (sem + 1, { t with code := rest, permits := t.permits + 1 })
    else none
  | Instr.openHandle :: rest => some (sem, { t with code := rest, handles := t.handles + 1 })
  | Instr.closeHandle :: rest => some (sem, { t with code := rest, handles := t.handles - 1 })
  | Instr.release :: rest =>
    if 0 < sem then some (sem - 1, { t with code := rest, permits := t.permits - 1 })
    else none

/-- One step of a run; `none` when the event is not enabled in the state. -/
def step (s : Conc) : Event → Option Conc
  | Event.callCountDir =>
    some { s with threads := s.threads ++ [{ code := countDirCode, handles := 0, permits := 0 }] }
  | Event.goCountFile =>
    some { s with threads := s.threads ++ [{ code := countFileCode, handles := 0, permits := 0 }] }
  | Event.exec i =>
    match s.threads[i]? with
    | none => none
    | some t =>
      match execInstr s.sem t with
      | none => none
      | some (sem, t') => some { sem := sem, threads := s.threads.set i t' }

/-- The state reached by a sequence of events, when each is enabled in turn. -/
def run (s : Conc) : List Event → Option Conc
  | [] => some s
  | e :: es =>
    match step s e with
    | none => none
    | some s' => run s' es

/-- The start of `main`: `fdSem` is empty and `main` calls `countDir(startPath)`. -/
def initConc : Conc :=
  { sem := 0, threads := [{ code := countDirCode, handles := 0, permits := 0 }] }

/-- The number of file-system handles open in a state. -/
def openHandles (s : Conc) : Nat := (s.threads.map (fun t => t.handles)).sum

/-- The number of permits held by the calls of a state. -/
def heldPermits (s : Conc) : Nat := (s.threads.map (fun t => t.permits)).sum

/-- The states a call of `countDir` or `countFile` goes through: before the send, with a
permit and no handle, with a permit and the handle open, with a permit and the handle
closed again, after the receive. -/
def threadOk (t : Thread) : Prop :=
  t = { code := [Instr.acquire, Instr.openHandle, Instr.closeHandle, Instr.release],
        handles := 0, permits := 0 } ∨
  t = { code := [Instr.openHandle, Instr.closeHandle, Instr.release],
        handles := 0, permits := 1 } ∨
  t = { code := [Instr.closeHandle, Instr.release], handles := 1, permits := 1 } ∨
  t = { code := [Instr.release], handles := 0, permits := 1 } ∨
  t = { code := [], handles := 0, permits := 0 }

/-! ## Facts about the string model -/

theorem fieldsGo_spaces (ws rest : Str) (h : ∀ c ∈ ws, isSpace c = true) :
    fieldsGo (ws ++ rest) [] = fieldsGo rest [] := by
  induction ws with
  | nil => rfl
  | cons c cs ih =>
    have hc : isSpace c = true := h c (List.mem_cons_self _ _)
    have hcs : ∀ d ∈ cs, isSpace d = true := fun d hd => h d (List.mem_cons_of_mem _ hd)
    simp [fieldsGo, hc, ih hcs]

theorem fieldsGo_token (tok rest cur : Str) (h : ∀ c ∈ tok, isSpace c = false) :
    fieldsGo (tok ++ rest) cur = fieldsGo rest (tok.reverse ++ cur) := by
  induction tok generalizing cur with
  | nil => rfl
  | cons c cs ih =>
    have hc : isSpace c = false := h c (List.mem_cons_self _ _)
    have hcs : ∀ d ∈ cs, isSpace d = false := fun d hd => h d (List.mem_cons_of_mem _ hd)
    simp [fieldsGo, hc, ih _ hcs]

/-- A line that is all white space has no fields. -/
theorem Fields_spaces (ws : Str) (h : ∀ c ∈ ws, isSpace c = true) : Fields ws = [] := by
  have := fieldsGo_spaces ws [] h
  simpa [Fields, fieldsGo] using this

/-- A single token with white space around it splits into exactly that token. -/
theorem Fields_padded (ws₁ tok ws₂ : Str) (h₁ : ∀ c ∈ ws₁, isSpace c = true)
    (ht : ∀ c ∈ tok, isSpace c = false) (hne : tok ≠ [])
    (h₂ : ∀ c ∈ ws₂, isSpace c = true) : Fields (ws₁ ++ tok ++ ws₂) = [tok] := by
  have hrev : tok.reverse ≠ [] := by simpa using hne
  unfold Fields
  rw [List.append_assoc, fieldsGo_spaces _ _ h₁, fieldsGo_token _ _ _ ht]
  cases ws₂ with
  | nil => simp [fieldsGo, hne]
  | cons c cs =>
    have hc : isSpace c = true := h₂ c (List.mem_cons_self _ _)
    have hcs : ∀ d ∈ cs, isSpace d = true := fun d hd => h₂ d (List.mem_cons_of_mem _ hd)
    have h0 : fieldsGo cs [] = [] := by
      have := fieldsGo_spaces cs [] hcs
      simpa [fieldsGo] using this
    simp [fieldsGo, hc, hne, h0]

/-- A loop that drops the prefix test leaves its result variable unchanged. -/
theorem foldl_discard (f0 : Str) (cs : List Str) (b : Bool) :
    cs.foldl (fun (r : Bool) commentStart =>
      let _discarded := HasPrefix f0 commentStart
      r) b = b := by
  induction cs with
  | nil => rfl
  | cons c cs ih => simp only [List.foldl_cons]; exact ih

/-- The comment test never fires, whatever the rule and the line. -/
theorem isComment_false (l : lang) (line : Str) : isComment l line = false := by
  unfold isComment
  split
  · rfl
  · split
    · rfl
    · rename_i f0 _ _
      exact foldl_discard f0 l.Comment false

/-- The scanning loop from an arbitrary starting tally. -/
theorem foldl_countStep (l : lang) (lines : List Str) (acc : Nat × Nat) :
    lines.foldl (countStep l) acc =
      (acc.1 + (lines.filter (fun x => !ignoreLine l x)).length,
       acc.2 + ((lines.filter (fun x => !ignoreLine l x)).map len).sum) := by
  induction lines generalizing acc with
  | nil => simp
  | cons x xs ih =>
    rw [List.foldl_cons, ih]
    by_cases hx : ignoreLine l x = true
    · simp [countStep, hx]
    · have hx' : ignoreLine l x = false := by simpa using hx
      simp [countStep, hx', Nat.add_assoc, Nat.add_comm 1]

theorem HasSuffix_iff (s suf : Str) : HasSuffix s suf = true ↔ suf <:+ s := by
  simp [HasSuffix]

theorem Contains_iff (s sub : Str) : Contains s sub = true ↔ sub <:+: s := by
  induction s with
  | nil => simp [Contains, List.isEmpty_iff]
  | cons c cs ih => simp [Contains, ih, List.infix_cons_iff]

theorem isSourceFile_cons (langName : Str) (l : lang) (rest : Registry) (p : Str) :
    isSourceFile ((langName, l) :: rest) p =
      if hasExt l p then (true, langName) else isSourceFile rest p := rfl

theorem isSourceFile_true (ord : Registry) (p L : Str) (h : isSourceFile ord p = (true, L)) :
    ∃ l, (L, l) ∈ ord ∧ hasExt l p = true := by
  induction ord with
  | nil => simp [isSourceFile] at h
  | cons e rest ih =>
    obtain ⟨n, l⟩ := e
    rw [isSourceFile_cons] at h
    by_cases hm : hasExt l p = true
    · simp only [hm, if_true, Prod.mk.injEq, true_and] at h
      exact ⟨l, by simp [h], hm⟩
    · simp only [hm] at h
      obtain ⟨l', hl', hm'⟩ := ih h
      exact ⟨l', List.mem_cons_of_mem _ hl', hm'⟩

theorem isSourceFile_some (ord : Registry) (p : Str) (h : ∃ e ∈ ord, hasExt e.2 p = true) :
    ∃ L, isSourceFile ord p = (true, L) := by
  induction ord with
  | nil =>
    obtain ⟨e, he, _⟩ := h
    cases he
  | cons e rest ih =>
    obtain ⟨n, l⟩ := e
    rw [isSourceFile_cons]
    by_cases hm : hasExt l p = true
    · exact ⟨n, by simp [hm]⟩
    · obtain ⟨e', he', hm'⟩ := h
      rcases List.mem_cons.1 he' with rfl | hin
      · exact absurd hm' hm
      · simp only [hm]
        exact ih ⟨e', hin, hm'⟩

theorem isSourceFile_false_iff (ord : Registry) (p : Str) :
    isSourceFile ord p = (false, []) ↔ ∀ e ∈ ord, hasExt e.2 p = false := by
  constructor
  · intro h e he
    cases hm : hasExt e.2 p with
    | false => rfl
    | true =>
      obtain ⟨L, hL⟩ := isSourceFile_some ord p ⟨e, he, hm⟩
      rw [h] at hL
      simp at hL
  · intro h
    induction ord with
    | nil => rfl
    | cons e rest ih =>
      obtain ⟨n, l⟩ := e
      rw [isSourceFile_cons]
      have h1 : hasExt l p = false := h (n, l) (List.mem_cons_self _ _)
      simp only [h1]
      exact ih (fun e he => h e (List.mem_cons_of_mem _ he))

theorem getLang_of_mem (m : Registry) (hnd : NodupKeys m) (k : Str) (l : lang)
    (h : (k, l) ∈ m) : getLang m k = l := by
  induction m with
  | nil => cases h
  | cons e rest ih =>
    obtain ⟨n, l'⟩ := e
    have hnd' : n ∉ rest.map Prod.fst ∧ NodupKeys rest := by
      simpa [NodupKeys] using hnd
    by_cases hk : n = k
    · subst hk
      rcases List.mem_cons.1 h with heq | hin
      · cases heq
        simp [getLang]
      · exact absurd (List.mem_map_of_mem Prod.fst hin) hnd'.1
    · rcases List.mem_cons.1 h with heq | hin
      · cases heq; exact absurd rfl hk
      · have := ih hnd'.2 hin
        simpa [getLang, List.find?_cons, hk] using this

theorem builtin_nodup : NodupKeys languages := by
  unfold NodupKeys; decide

set_option maxRecDepth 100000 in
theorem builtin_ext_table : ∀ e₁ ∈ languages, ∀ e₂ ∈ languages,
    ∀ s₁ ∈ e₁.2.Filetypes, ∀ s₂ ∈ e₂.2.Filetypes,
    (s₁.isSuffixOf s₂ = true ∨ s₂.isSuffixOf s₁ = true) → e₁.1 = e₂.1 := by
  decide

/-- No path ends with extensions of two different built-in languages. -/
theorem builtin_ext_disjoint (e₁ e₂ : Str × lang) (h₁ : e₁ ∈ languages) (h₂ : e₂ ∈ languages)
    (p : Str) (m₁ : hasExt e₁.2 p = true) (m₂ : hasExt e₂.2 p = true) : e₁.1 = e₂.1 := by
  obtain ⟨s₁, hs₁, hp₁⟩ := List.any_eq_true.1 m₁
  obtain ⟨s₂, hs₂, hp₂⟩ := List.any_eq_true.1 m₂
  have q₁ := (HasSuffix_iff _ _).1 hp₁
  have q₂ := (HasSuffix_iff _ _).1 hp₂
  refine builtin_ext_table e₁ h₁ e₂ h₂ s₁ hs₁ s₂ hs₂ ?_
  rcases List.suffix_or_suffix_of_suffix q₁ q₂ with h | h
  · exact Or.inl (List.isSuffixOf_iff_suffix.2 h)
  · exact Or.inr (List.isSuffixOf_iff_suffix.2 h)

/-- On the built-in registry the classification of a path does not depend on the order
of the visit: it is `L` exactly when an extension of `L` is a suffix of the path. -/
theorem isSourceFile_builtin_iff (ord : Registry) (hperm : ord.Perm languages) (p L : Str) :
    isSourceFile ord p = (true, L) ↔ ∃ l, (L, l) ∈ languages ∧ hasExt l p = true := by
  constructor
  · intro h
    obtain ⟨l, hl, hm⟩ := isSourceFile_true ord p L h
    exact ⟨l, hperm.mem_iff.1 hl, hm⟩
  · rintro ⟨l, hl, hm⟩
    obtain ⟨L', hL'⟩ := isSourceFile_some ord p ⟨(L, l), hperm.mem_iff.2 hl, hm⟩
    obtain ⟨l', hl', hm'⟩ := isSourceFile_true ord p L' hL'
    have : L' = L :=
      builtin_ext_disjoint (L', l') (L, l) (hperm.mem_iff.1 hl') hl p hm' hm
    rw [hL', this]

theorem isSourceFile_builtin_order (ord₁ ord₂ : Registry) (h₁ : ord₁.Perm languages)
    (h₂ : ord₂.Perm languages) (p : Str) : isSourceFile ord₁ p = isSourceFile ord₂ p := by
  by_cases h : ∃ e ∈ languages, hasExt e.2 p = true
  · obtain ⟨e, he, hm⟩ := h
    have a₁ := (isSourceFile_builtin_iff ord₁ h₁ p e.1).2 ⟨e.2, he, hm⟩
    have a₂ := (isSourceFile_builtin_iff ord₂ h₂ p e.1).2 ⟨e.2, he, hm⟩
    rw [a₁, a₂]
  · have hn : ∀ (ord : Registry), ord.Perm languages → isSourceFile ord p = (false, []) := by
      intro ord hperm
      refine (isSourceFile_false_iff ord p).2 ?_
      intro e he
      cases hm : hasExt e.2 p with
      | false => rfl
      | true => exact absurd ⟨e, hperm.mem_iff.1 he, hm⟩ h
    rw [hn ord₁ h₁, hn ord₂ h₂]

theorem getLang_withoutTestMarkers (m : Registry) (k : Str) :
    getLang (withoutTestMarkers m) k =
      { getLang m k with TestFilename := [], TestDirname := [] } := by
  induction m with
  | nil => rfl
  | cons e rest ih =>
    by_cases hk : e.1 = k
    · simp [getLang, withoutTestMarkers, List.find?_cons, hk]
    · have ih' := ih
      simp only [getLang, withoutTestMarkers] at ih' ⊢
      simpa [List.find?_cons, hk] using ih'

theorem isSourceFile_withoutTestMarkers (ord : Registry) (p : Str) :
    isSourceFile (withoutTestMarkers ord) p = isSourceFile ord p := by
  induction ord with
  | nil => rfl
  | cons e rest ih =>
    obtain ⟨n, l⟩ := e
    have ih' : isSourceFile (List.map
        (fun e => (e.1, { e.2 with TestFilename := [], TestDirname := [] })) rest) p =
        isSourceFile rest p := ih
    simp only [withoutTestMarkers, List.map_cons, isSourceFile, ih']

theorem ignoreDir_false_eq (languages : Registry) (b : Bool) (dirPath L : Str) :
    ignoreDir languages false dirPath L = ignoreDir (withoutTestMarkers languages) b dirPath L := by
  simp [ignoreDir, getLang_withoutTestMarkers]

theorem ignoreFile_false_eq (languages : Registry) (b : Bool) (name L : Str) :
    ignoreFile languages false name L = ignoreFile (withoutTestMarkers languages) b name L := by
  simp [ignoreFile, getLang_withoutTestMarkers]

/-- The deletion loop, from any map `m`: an entry survives unless a visited key equal to
its own has a lower-casing different from `keep`. -/
theorem foldl_delete (lr : Char → Char) (keep : Str) (ord m : Registry) :
    ord.foldl (fun m e => if ToLower lr e.1 != keep then delete m e.1 else m) m =
      m.filter (fun x => !(ord.any (fun e => e.1 == x.1 && ToLower lr e.1 != keep))) := by
  induction ord generalizing m with
  | nil => simp
  | cons e rest ih =>
    rw [List.foldl_cons, ih]
    by_cases hc : (ToLower lr e.1 != keep) = true
    · simp only [hc, if_true, delete, List.filter_filter]
      apply List.filter_congr
      intro x _
      have e1 : (x.1 != e.1) = !(e.1 == x.1) := by
        rw [bne, BEq.comm]
      simp only [List.any_cons, hc, Bool.and_true, Bool.not_or, e1]
      rw [Bool.and_comm]
    · simp only [hc, if_false, Bool.false_eq_true]
      apply List.filter_congr
      intro x _
      simp [hc]

theorem removeOtherLangs_eq_filter (lr : Char → Char) (languages ord : Registry)
    (hperm : ord.Perm languages) (k : Str) :
    removeOtherLangs lr languages ord k =
      languages.filter (fun e => ToLower lr e.1 == ToLower lr k) := by
  unfold removeOtherLangs
  simp only [foldl_delete]
  apply List.filter_congr
  intro x hx
  by_cases hk : ToLower lr x.1 = ToLower lr k
  · have : (ord.any (fun e => e.1 == x.1 && ToLower lr e.1 != ToLower lr k)) = false := by
      rw [List.any_eq_false]
      intro e _ h
      simp only [Bool.and_eq_true, beq_iff_eq, bne_iff_ne, ne_eq] at h
      exact h.2 (h.1 ▸ hk)
    simp [this, hk]
  · have : (ord.any (fun e => e.1 == x.1 && ToLower lr e.1 != ToLower lr k)) = true := by
      rw [List.any_eq_true]
      exact ⟨x, hperm.mem_iff.2 hx, by simp [hk]⟩
    simp [this, hk]

theorem getLang_filter (m : Registry) (q : Str → Bool) (n : Str) (hq : q n = true) :
    getLang (m.filter (fun e => q e.1)) n = getLang m n := by
  induction m with
  | nil => rfl
  | cons e rest ih =>
    obtain ⟨en, el⟩ := e
    have ih' := ih
    simp only [getLang] at ih' ⊢
    by_cases hk : en = n
    · subst hk
      simp [List.filter_cons, hq, List.find?_cons]
    · by_cases hqe : q en = true
      · simpa [List.filter_cons, hqe, List.find?_cons, hk] using ih'
      · simpa [List.filter_cons, hqe, List.find?_cons, hk] using ih'

theorem builtin_names_ascii : ∀ e ∈ languages, ∀ c ∈ e.1, c.toNat < 128 := by decide

set_option maxRecDepth 100000 in
theorem builtin_lower_table : ∀ n ∈ languages.map Prod.fst,
    languages.filter (fun e => ToLower asciiLower e.1 == ToLower asciiLower n) =
      [(n, getLang languages n)] := by
  decide

/-- A rune mapping that lower-cases ASCII as `unicode.ToLower` does acts on a built-in
name as ASCII lower-casing. -/
theorem ToLower_builtin (lr : Char → Char) (hlr : ∀ c : Char, c.toNat < 128 → lr c = asciiLower c)
    (n : Str) (hn : n ∈ languages.map Prod.fst) : ToLower lr n = ToLower asciiLower n := by
  obtain ⟨e, he, rfl⟩ := List.mem_map.1 hn
  exact List.map_congr_left (fun c hc => hlr c (builtin_names_ascii e he c hc))

theorem removeOtherLangs_builtin (lr : Char → Char)
    (hlr : ∀ c : Char, c.toNat < 128 → lr c = asciiLower c) (ord : Registry)
    (hperm : ord.Perm languages) (X L : Str) (hL : L ∈ languages.map Prod.fst)
    (hX : ToLower lr X = ToLower lr L) :
    removeOtherLangs lr languages ord X = [(L, getLang languages L)] := by
  rw [removeOtherLangs_eq_filter lr languages ord hperm X, ← builtin_lower_table L hL]
  apply List.filter_congr
  intro e he
  rw [hX, ToLower_builtin lr hlr L hL,
    ToLower_builtin lr hlr e.1 (List.mem_map_of_mem Prod.fst he)]

theorem ignoreLine_blank (l : lang) (line : Str) (h : ∀ c ∈ line, isSpace c = true) :
    ignoreLine l line = true := by
  simp [ignoreLine, isEmpty, Fields_spaces line h]

theorem getCount_cons (e : Str × count) (m : Counters) (n : Str) :
    getCount (e :: m) n = if e.1 = n then e.2 else getCount m n := by
  by_cases h : e.1 = n
  · simp [getCount, List.find?_cons, h]
  · simp [getCount, List.find?_cons, h]

theorem getCount_append_singleton (m : Counters) (k : Str) (v : count) (n : Str)
    (hk : m.any (fun e => e.1 == k) = false) :
    getCount (m ++ [(k, v)]) n = if n = k then v else getCount m n := by
  induction m with
  | nil =>
    by_cases h : k = n
    · subst h; simp [getCount]
    · have h' : ¬ n = k := fun e => h e.symm
      simp [getCount, h, h']
  | cons e rest ih =>
    have hk' : ¬ e.1 = k ∧ rest.any (fun e => e.1 == k) = false := by
      simpa [List.any_cons] using hk
    rw [List.cons_append, getCount_cons, getCount_cons, ih hk'.2]
    by_cases he : e.1 = n
    · have : ¬ n = k := fun h => hk'.1 (he.trans h)
      simp [he, this]
    · simp [he]

theorem getCount_map_set (m : Counters) (k : Str) (v : count) (n : Str)
    (hk : m.any (fun e => e.1 == k) = true) :
    getCount (m.map (fun e => if e.1 == k then (k, v) else e)) n =
      if n = k then v else getCount m n := by
  induction m with
  | nil => simp at hk
  | cons e rest ih =>
    rw [List.map_cons, getCount_cons, getCount_cons]
    by_cases he : e.1 = k
    · by_cases hn : n = k
      · subst hn; simp [he]
      · have hn' : ¬ k = n := fun h => hn h.symm
        have hen : ¬ e.1 = n := fun h => hn (h.symm.trans he)
        simp only [he, beq_self_eq_true, if_true, hn', hn, if_false, hen]
        by_cases hr : rest.any (fun e => e.1 == k) = true
        · rw [ih hr]; simp [hn]
        · have hr' : ∀ x ∈ rest, ¬ x.1 = k := by
            intro x hx hxk
            exact hr (List.any_eq_true.2 ⟨x, hx, by simpa using hxk⟩)
          have : rest.map (fun e => if e.1 == k then (k, v) else e) = rest := by
            conv => rhs; rw [← List.map_id rest]
            apply List.map_congr_left
            intro x hx
            simp [hr' x hx]
          rw [this]
    · have hr : rest.any (fun e => e.1 == k) = true := by
        simpa [List.any_cons, he] using hk
      have hb : (e.1 == k) = false := by simpa using he
      simp only [hb, Bool.false_eq_true, if_false]
      rw [ih hr]
      by_cases hen : e.1 = n
      · have : ¬ n = k := fun h => he (hen.trans h)
        simp [hen, this]
      · simp [hen]

/-- Reading a map after writing a key. -/
theorem getCount_setKey (m : Counters) (k : Str) (v : count) (n : Str) :
    getCount (setKey m k v) n = if n = k then v else getCount m n := by
  unfold setKey
  by_cases hk : m.any (fun e => e.1 == k) = true
  · rw [if_pos hk]; exact getCount_map_set m k v n hk
  · have hk' : m.any (fun e => e.1 == k) = false := eq_false_of_ne_true hk
    rw [if_neg hk]; exact getCount_append_singleton m k v n hk'

theorem mem_setKey (m : Counters) (k : Str) (v : count) (e : Str × count)
    (h : e ∈ setKey m k v) : e ∈ m ∨ e = (k, v) := by
  unfold setKey at h
  by_cases hk : m.any (fun e => e.1 == k) = true
  · rw [if_pos hk] at h
    obtain ⟨x, hx, rfl⟩ := List.mem_map.1 h
    by_cases hxk : (x.1 == k) = true
    · right; simp [hxk]
    · left; simpa [hxk] using hx
  · rw [if_neg hk] at h
    rcases List.mem_append.1 h with h | h
    · exact Or.inl h
    · exact Or.inr (by simpa using h)

theorem keys_setKey (m : Counters) (k : Str) (v : count) (n : Str) :
    n ∈ (setKey m k v).map Prod.fst ↔ n ∈ m.map Prod.fst ∨ n = k := by
  unfold setKey
  by_cases hk : m.any (fun e => e.1 == k) = true
  · rw [if_pos hk]
    have hmap : (m.map (fun e => if e.1 == k then (k, v) else e)).map Prod.fst =
        m.map Prod.fst := by
      rw [List.map_map]
      apply List.map_congr_left
      intro x _
      by_cases hx : x.1 = k
      · simp [hx]
      · simp [hx]
    rw [hmap]
    constructor
    · exact Or.inl
    · rintro (h | h)
      · exact h
      · obtain ⟨x, hx, hxk⟩ := List.any_eq_true.1 hk
        subst h
        exact List.mem_map.2 ⟨x, hx, by simpa using hxk⟩
  · rw [if_neg hk]
    simp

theorem getCount_not_mem (m : Counters) (n : Str) (h : n ∉ m.map Prod.fst) :
    getCount m n = {} := by
  induction m with
  | nil => rfl
  | cons e rest ih =>
    have h' : ¬ e.1 = n ∧ n ∉ rest.map Prod.fst := by
      constructor
      · intro he; exact h (by simp [he])
      · intro hr; exact h (by simp only [List.map_cons]; exact List.mem_cons_of_mem _ hr)
    rw [getCount_cons, if_neg h'.1, ih h'.2]

theorem keys_setKey_of_mem (m : Counters) (k : Str) (v : count) (h : k ∈ m.map Prod.fst) :
    (setKey m k v).map Prod.fst = m.map Prod.fst := by
  obtain ⟨x, hx, hxk⟩ := List.mem_map.1 h
  have hk : m.any (fun e => e.1 == k) = true :=
    List.any_eq_true.2 ⟨x, hx, by simpa using hxk⟩
  unfold setKey
  rw [if_pos hk, List.map_map]
  apply List.map_congr_left
  intro y _
  by_cases hy : y.1 = k
  · simp [hy]
  · simp [hy]

theorem nodupKeys_setKey (m : Counters) (k : Str) (v : count) (h : NodupKeys m) :
    NodupKeys (setKey m k v) := by
  by_cases hk : k ∈ m.map Prod.fst
  · unfold NodupKeys
    rw [keys_setKey_of_mem m k v hk]
    exact h
  · have hany : ¬ m.any (fun e => e.1 == k) = true := by
      intro ha
      obtain ⟨x, hx, hxk⟩ := List.any_eq_true.1 ha
      exact hk (List.mem_map.2 ⟨x, hx, by simpa using hxk⟩)
    unfold NodupKeys setKey at *
    rw [if_neg hany, List.map_append]
    exact List.Nodup.append h (List.nodup_singleton _) (by simpa using hk)

/-- A map with distinct keys is determined by its key sequence and its readings. -/
theorem counters_ext (m m' : Counters) (hnd : NodupKeys m)
    (hk : m.map Prod.fst = m'.map Prod.fst) (hv : ∀ n, getCount m n = getCount m' n) :
    m = m' := by
  induction m generalizing m' with
  | nil =>
    cases m' with
    | nil => rfl
    | cons _ _ => simp at hk
  | cons e t ih =>
    cases m' with
    | nil => simp at hk
    | cons e' t' =>
      obtain ⟨k, v⟩ := e
      obtain ⟨k', v'⟩ := e'
      simp only [List.map_cons, List.cons.injEq] at hk
      obtain ⟨rfl, hkt⟩ := hk
      have hnd' : k ∉ t.map Prod.fst ∧ NodupKeys t := by
        simpa [NodupKeys] using hnd
      have hval : v = v' := by
        have := hv k
        simpa [getCount_cons] using this
      subst hval
      have ht : t = t' := by
        apply ih t' hnd'.2 hkt
        intro n
        by_cases hn : k = n
        · subst hn
          rw [getCount_not_mem t k hnd'.1, getCount_not_mem t' k (hkt ▸ hnd'.1)]
        · have := hv n
          simpa [getCount_cons, hn] using this
      rw [ht]

theorem initCounters_zero (ord : Registry) :
    (∀ n, getCount (initCounters ord) n = {}) ∧
    (∀ e ∈ initCounters ord, e.2 = {}) ∧
    (∀ n, n ∈ (initCounters ord).map Prod.fst ↔ n ∈ ord.map Prod.fst) ∧
    NodupKeys (initCounters ord) := by
  have key : ∀ (ord : Registry) (m : Counters),
      (∀ n, getCount m n = {}) → (∀ e ∈ m, e.2 = {}) → NodupKeys m →
      (∀ n, getCount (ord.foldl (fun m e => setKey m e.1 ({} : count)) m) n = {}) ∧
      (∀ e ∈ ord.foldl (fun m e => setKey m e.1 ({} : count)) m, e.2 = {}) ∧
      (∀ n, n ∈ (ord.foldl (fun m e => setKey m e.1 ({} : count)) m).map Prod.fst ↔
        n ∈ m.map Prod.fst ∨ n ∈ ord.map Prod.fst) ∧
      NodupKeys (ord.foldl (fun m e => setKey m e.1 ({} : count)) m) := by
    intro ord
    induction ord with
    | nil => intro m h1 h2 h3; exact ⟨h1, h2, by simp, h3⟩
    | cons x rest ih =>
      intro m h1 h2 h3
      rw [List.foldl_cons]
      have a1 : ∀ n, getCount (setKey m x.1 ({} : count)) n = {} := by
        intro n
        rw [getCount_setKey]
        split
        · rfl
        · exact h1 n
      have a2 : ∀ e ∈ setKey m x.1 ({} : count), e.2 = {} := by
        intro e he
        rcases mem_setKey m x.1 {} e he with h | h
        · exact h2 e h
        · rw [h]
      obtain ⟨b1, b2, b3, b4⟩ := ih (setKey m x.1 {}) a1 a2 (nodupKeys_setKey m x.1 {} h3)
      refine ⟨b1, b2, ?_, b4⟩
      intro n
      rw [b3, keys_setKey]
      simp only [List.map_cons, List.mem_cons]
      tauto
  have h := key ord [] (fun _ => rfl) (fun _ h => by cases h) (by simp [NodupKeys])
  exact ⟨h.1, h.2.1, by simpa using h.2.2.1, h.2.2.2⟩

theorem getCount_updateCounters (c : Counters) (k : Str) (lc cc : Nat) (n : Str) :
    getCount (updateCounters c k lc cc) n =
      if n = k then
        { LineCount := (getCount c k).LineCount + lc
          CharCount := (getCount c k).CharCount + cc
          FileCount := (getCount c k).FileCount + 1 }
      else getCount c n := by
  simp only [updateCounters, getCount_setKey]

theorem getCount_foldResults (c : Counters) (rs : List (Str × Nat × Nat)) (n : Str) :
    getCount (foldResults c rs) n =
      { LineCount := (getCount c n).LineCount + (tallyFor rs n).LineCount
        CharCount := (getCount c n).CharCount + (tallyFor rs n).CharCount
        FileCount := (getCount c n).FileCount + (tallyFor rs n).FileCount } := by
  induction rs generalizing c with
  | nil => simp [foldResults, tallyFor]
  | cons r rest ih =>
    have hstep : foldResults c (r :: rest) =
        foldResults (updateCounters c r.1 r.2.1 r.2.2) rest := rfl
    rw [hstep, ih, getCount_updateCounters]
    by_cases hn : n = r.1
    · subst hn
      simp [tallyFor, List.filter_cons, Nat.add_assoc, Nat.add_comm 1]
    · have hn' : ¬ r.1 = n := fun h => hn h.symm
      simp [tallyFor, List.filter_cons, hn, hn']

theorem keys_foldResults (c : Counters) (rs : List (Str × Nat × Nat)) (n : Str) :
    n ∈ (foldResults c rs).map Prod.fst ↔ n ∈ c.map Prod.fst ∨ n ∈ rs.map Prod.fst := by
  induction rs generalizing c with
  | nil => simp [foldResults]
  | cons r rest ih =>
    have hstep : foldResults c (r :: rest) =
        foldResults (updateCounters c r.1 r.2.1 r.2.2) rest := rfl
    rw [hstep, ih]
    simp only [updateCounters, keys_setKey, List.map_cons, List.mem_cons]
    tauto

theorem keyList_foldResults (c : Counters) (rs : List (Str × Nat × Nat))
    (hnd : NodupKeys c) (hin : ∀ r ∈ rs, r.1 ∈ c.map Prod.fst) :
    (foldResults c rs).map Prod.fst = c.map Prod.fst ∧ NodupKeys (foldResults c rs) := by
  induction rs generalizing c with
  | nil => exact ⟨rfl, hnd⟩
  | cons r rest ih =>
    have hstep : foldResults c (r :: rest) =
        foldResults (updateCounters c r.1 r.2.1 r.2.2) rest := rfl
    have hr : r.1 ∈ c.map Prod.fst := hin r (List.mem_cons_self _ _)
    have hk : (updateCounters c r.1 r.2.1 r.2.2).map Prod.fst = c.map Prod.fst := by
      simp only [updateCounters]
      exact keys_setKey_of_mem c r.1 _ hr
    have hnd' : NodupKeys (updateCounters c r.1 r.2.1 r.2.2) := by
      simp only [updateCounters]
      exact nodupKeys_setKey c r.1 _ hnd
    have := ih (updateCounters c r.1 r.2.1 r.2.2) hnd'
      (fun x hx => hk ▸ hin x (List.mem_cons_of_mem _ hx))
    rw [hstep]
    exact ⟨this.1.trans hk, this.2⟩

theorem foldFiles_eq (languages : Registry) (c : Counters) (fs : List (Str × List Str)) :
    foldFiles languages c fs =
      foldResults c (fs.map (fun f => (f.1, countLines (getLang languages f.1) f.2))) := by
  induction fs generalizing c with
  | nil => rfl
  | cons f rest ih =>
    have hstep : foldFiles languages c (f :: rest) =
        foldFiles languages (countFile languages c f.1 f.2) rest := rfl
    rw [hstep, ih]
    rfl

theorem tallyFor_perm (rs rs' : List (Str × Nat × Nat)) (h : rs.Perm rs') (n : Str) :
    tallyFor rs n = tallyFor rs' n := by
  have hf := h.filter (fun r => r.1 == n)
  simp only [tallyFor, (hf.map (fun r => r.2.1)).sum_eq, (hf.map (fun r => r.2.2)).sum_eq,
    hf.length_eq]

theorem countLines_blank (l : lang) (lines : List Str)
    (h : ∀ line ∈ lines, ∀ c ∈ line, isSpace c = true) : countLines l lines = (0, 0) := by
  have hf : lines.filter (fun x => !ignoreLine l x) = [] := by
    rw [List.filter_eq_nil_iff]
    intro x hx
    simp [ignoreLine_blank l x (h x hx)]
  rw [countLines, foldl_countStep, hf]
  rfl

theorem len_pos_of_counted (l : lang) (line : Str) (h : ignoreLine l line = false) :
    1 ≤ len line := by
  cases line with
  | nil => simp [ignoreLine, isEmpty, Fields, fieldsGo] at h
  | cons c cs =>
    have := Char.utf8Size_pos c
    simp only [len, List.map_cons, List.sum_cons]
    omega

theorem length_le_sum_len (l : lang) (xs : List Str) (h : ∀ x ∈ xs, ignoreLine l x = false) :
    xs.length ≤ (xs.map len).sum := by
  induction xs with
  | nil => simp
  | cons x rest ih =>
    have h1 := len_pos_of_counted l x (h x (List.mem_cons_self _ _))
    have h2 := ih (fun y hy => h y (List.mem_cons_of_mem _ hy))
    simp only [List.length_cons, List.map_cons, List.sum_cons]
    omega

theorem countLines_line_le_char (l : lang) (lines : List Str) :
    (countLines l lines).1 ≤ (countLines l lines).2 := by
  rw [countLines, foldl_countStep]
  simp only [Nat.zero_add]
  apply length_le_sum_len l
  intro x hx
  simpa using (List.mem_filter.1 hx).2

theorem foldFiles_line_le_char (languages : Registry) (fs : List (Str × List Str))
    (c : Counters) (hc : ∀ n, (getCount c n).LineCount ≤ (getCount c n).CharCount) (n : Str) :
    (getCount (foldFiles languages c fs) n).LineCount ≤
      (getCount (foldFiles languages c fs) n).CharCount := by
  induction fs generalizing c with
  | nil => exact hc n
  | cons f rest ih =>
    have hstep : foldFiles languages c (f :: rest) =
        foldFiles languages (countFile languages c f.1 f.2) rest := rfl
    rw [hstep]
    apply ih
    intro m
    simp only [countFile, getCount_updateCounters]
    have h1 := countLines_line_le_char (getLang languages f.1) f.2
    have h2 := hc f.1
    split
    · simp only; omega
    · exact hc m

theorem foldResults_entries (rs : List (Str × Nat × Nat)) (c : Counters)
    (hc : ∀ e ∈ c, e.2.LineCount ≠ 0 → 1 ≤ e.2.FileCount) :
    ∀ e ∈ foldResults c rs, e.2.LineCount ≠ 0 → 1 ≤ e.2.FileCount := by
  induction rs generalizing c with
  | nil => exact hc
  | cons r rest ih =>
    have hstep : foldResults c (r :: rest) =
        foldResults (updateCounters c r.1 r.2.1 r.2.2) rest := rfl
    rw [hstep]
    apply ih
    intro e he hne
    simp only [updateCounters] at he
    rcases mem_setKey c r.1 _ e he with h | h
    · exact hc e h hne
    · rw [h]; simp

theorem printLoop_isSome (ord : Counters)
    (h : ∀ e ∈ ord, e.2.LineCount ≠ 0 → 1 ≤ e.2.FileCount)
    (acc : List (Str × List Str) × Nat × Nat × Nat) : (printLoop ord acc).isSome = true := by
  induction ord generalizing acc with
  | nil => rfl
  | cons e rest ih =>
    obtain ⟨name, l⟩ := e
    obtain ⟨rows, tl, tc, tf⟩ := acc
    have hrest : ∀ x ∈ rest, x.2.LineCount ≠ 0 → 1 ≤ x.2.FileCount :=
      fun x hx => h x (List.mem_cons_of_mem _ hx)
    by_cases hl : l.LineCount = 0
    · simp only [printLoop, hl, beq_self_eq_true, if_true]
      exact ih hrest _
    · have hf : l.FileCount ≠ 0 := by
        have := h (name, l) (List.mem_cons_self _ _) hl
        simp only at this
        omega
      have hb : (l.LineCount == 0) = false := by simpa using hl
      simp only [printLoop, hb, goDiv, hl, hf, if_false, Bool.false_eq_true]
      exact ih hrest _

theorem digitChars_props : ∀ c ∈ digitChars, c.utf8Size = 1 ∧ c ≠ ',' := by decide

theorem digitChar_mem (k : Nat) (hk : k < 10) : Nat.digitChar k ∈ digitChars := by
  interval_cases k <;> decide

theorem toDigitsCore_digits (fuel n : Nat) (ds : List Char) (h : ∀ c ∈ ds, c ∈ digitChars) :
    ∀ c ∈ Nat.toDigitsCore 10 fuel n ds, c ∈ digitChars := by
  induction fuel generalizing n ds with
  | zero => simpa [Nat.toDigitsCore] using h
  | succ fuel ih =>
    have hd : ∀ c ∈ Nat.digitChar (n % 10) :: ds, c ∈ digitChars := by
      intro c hc
      rcases List.mem_cons.1 hc with rfl | hc
      · exact digitChar_mem _ (Nat.mod_lt _ (by decide))
      · exact h c hc
    unfold Nat.toDigitsCore
    simp only
    split
    · exact hd
    · exact ih _ _ hd

theorem toDigitsCore_ne_nil (fuel n : Nat) (ds : List Char) (h : ds ≠ []) :
    Nat.toDigitsCore 10 fuel n ds ≠ [] := by
  induction fuel generalizing n ds with
  | zero => simpa [Nat.toDigitsCore] using h
  | succ fuel ih =>
    unfold Nat.toDigitsCore
    simp only
    split
    · simp
    · exact ih _ _ (by simp)

theorem Itoa_digits (n : Nat) : ∀ c ∈ Itoa (n : Int), c ∈ digitChars := by
  show ∀ c ∈ Nat.toDigits 10 n, c ∈ digitChars
  exact toDigitsCore_digits _ _ _ (fun _ h => by cases h)

theorem Itoa_ne_nil (n : Nat) : Itoa (n : Int) ≠ [] := by
  show Nat.toDigits 10 n ≠ []
  unfold Nat.toDigits Nat.toDigitsCore
  simp only
  split
  · simp
  · exact toDigitsCore_ne_nil _ _ _ (by simp)

theorem len_digits (s : Str) (h : ∀ c ∈ s, c ∈ digitChars) : len s = s.length := by
  induction s with
  | nil => rfl
  | cons c cs ih =>
    have h1 := (digitChars_props c (h c (List.mem_cons_self _ _))).1
    have h2 := ih (fun d hd => h d (List.mem_cons_of_mem _ hd))
    simp only [len, List.map_cons, List.sum_cons, List.length_cons] at h2 ⊢
    omega

/-- The comma test of the loop, read on natural numbers. -/
theorem comma_test (offset i : Nat) (ho : offset < 3) :
    ((i : Int) > 0 ∧ Int.tmod ((i : Int) - (offset : Int)) 3 = 0) ↔
      (0 < i ∧ (i + 3 - offset) % 3 = 0) := by
  by_cases hle : offset ≤ i
  · have h0 : (0 : Int) ≤ (i : Int) - (offset : Int) := by omega
    rw [Int.tmod_eq_emod h0 (by decide)]
    omega
  · have hi : i < 2 := by omega
    interval_cases i <;> interval_cases offset <;> simp_all
    decide

theorem commaLoop_eq (offset : Nat) (ho : offset < 3) (s : Str)
    (h : ∀ c ∈ s, c ∈ digitChars) (i : Nat) (res : Str) :
    commaLoop (offset : Int) (i : Int) s res = res ++ commaOut offset i s := by
  induction s generalizing i res with
  | nil => simp [commaLoop, commaOut]
  | cons c cs ih =>
    have h1 := (digitChars_props c (h c (List.mem_cons_self _ _))).1
    have hcs : ∀ d ∈ cs, d ∈ digitChars := fun d hd => h d (List.mem_cons_of_mem _ hd)
    have hi : (i : Int) + (c.utf8Size : Int) = ((i + 1 : Nat) : Int) := by
      rw [h1]; push_cast; rfl
    unfold commaLoop commaOut
    simp only [hi]
    rw [ih hcs]
    by_cases ht : 0 < i ∧ (i + 3 - offset) % 3 = 0
    · have ht' := (comma_test offset i ho).2 ht
      rw [if_pos ht', if_pos ht]
      simp
    · have ht' : ¬ ((i : Int) > 0 ∧ Int.tmod ((i : Int) - (offset : Int)) 3 = 0) :=
        fun hh => ht ((comma_test offset i ho).1 hh)
      rw [if_neg ht', if_neg ht]
      simp

theorem commaInt_eq (n : Nat) :
    commaInt (n : Int) = commaOut ((Itoa (n : Int)).length % 3) 0 (Itoa (n : Int)) := by
  unfold commaInt
  simp only
  rw [len_digits _ (Itoa_digits n)]
  have hc : (((Itoa (n : Int)).length : Int) % 3) = (((Itoa (n : Int)).length % 3 : Nat) : Int) := by
    push_cast; rfl
  have := commaLoop_eq ((Itoa (n : Int)).length % 3) (Nat.mod_lt _ (by decide))
    (Itoa (n : Int)) (Itoa_digits n) 0 []
  simp only [List.nil_append] at this
  rw [← this, hc]
  rfl

theorem commaOut_cons (offset i : Nat) (c : Char) (cs : Str) :
    commaOut offset i (c :: cs) =
      (if 0 < i ∧ (i + 3 - offset) % 3 = 0 then [','] else []) ++
        c :: commaOut offset (i + 1) cs := rfl

theorem commaOut_filter (offset : Nat) (s : Str) (h : ∀ c ∈ s, c ≠ ',') (i : Nat) :
    (commaOut offset i s).filter (fun c => c != ',') = s := by
  induction s generalizing i with
  | nil => rfl
  | cons c cs ih =>
    have hc : c ≠ ',' := h c (List.mem_cons_self _ _)
    have hcs := ih (fun d hd => h d (List.mem_cons_of_mem _ hd)) (i + 1)
    rw [commaOut_cons]
    split <;> simp [List.filter_cons, hc, hcs]

theorem commaOut_ne_nil (offset i : Nat) (c : Char) (cs : Str) :
    commaOut offset (i + 1) (c :: cs) ≠ [] := by
  rw [commaOut_cons]
  simp

theorem commaOut_getLast (offset : Nat) (s : Str) (hne : s ≠ []) (i : Nat) :
    (commaOut offset i s).getLast? = s.getLast? := by
  induction s generalizing i with
  | nil => exact absurd rfl hne
  | cons c cs ih =>
    rw [commaOut_cons]
    cases cs with
    | nil => split <;> simp [commaOut]
    | cons d ds =>
      have h1 := ih (by simp) (i + 1)
      have h2 := commaOut_ne_nil offset i d ds
      rw [List.getLast?_append_of_ne_nil _ (by simp), List.getLast?_cons_cons]
      rw [← h1]
      cases hco : commaOut offset (i + 1) (d :: ds) with
      | nil => exact absurd hco h2
      | cons x xs => rw [List.getLast?_cons_cons]

/-- From an index where a comma is due, a string of `3 * k` characters is written as `k`
groups of three, each preceded by a comma. -/
theorem commaOut_groups (offset : Nat) (ho : offset < 3) (k : Nat) (s : Str) (i : Nat)
    (hs : s.length = 3 * k) (hi : 0 < i) (hm : (i + 3 - offset) % 3 = 0) :
    ∃ rest : List Str,
      commaOut offset i s = (rest.map (fun g => ',' :: g)).flatten ∧
      rest.flatten = s ∧ ∀ g ∈ rest, g.length = 3 := by
  induction k generalizing s i with
  | zero =>
    have : s = [] := List.length_eq_zero.1 (by simpa using hs)
    subst this
    exact ⟨[], rfl, rfl, fun _ h => by cases h⟩
  | succ k ih =>
    match s, hs with
    | a :: b :: c :: t, hs =>
      have ht : t.length = 3 * k := by simp only [List.length_cons] at hs; omega
      obtain ⟨rest, h1, h2, h3⟩ := ih t (i + 3) ht (by omega) (by omega)
      refine ⟨[a, b, c] :: rest, ?_, ?_, ?_⟩
      · have e1 : 0 < i ∧ (i + 3 - offset) % 3 = 0 := ⟨hi, hm⟩
        have e2 : ¬ (0 < i + 1 ∧ (i + 1 + 3 - offset) % 3 = 0) := by omega
        have e3 : ¬ (0 < i + 1 + 1 ∧ (i + 1 + 1 + 3 - offset) % 3 = 0) := by omega
        rw [commaOut_cons, commaOut_cons, commaOut_cons, if_pos e1, if_neg e2, if_neg e3]
        have e4 : i + 1 + 1 + 1 = i + 3 := by omega
        rw [e4, h1]
        simp
      · simp [h2]
      · intro g hg
        rcases List.mem_cons.1 hg with rfl | hg
        · rfl
        · exact h3 g hg
    | [], hs => simp at hs
    | [_], hs => simp at hs; omega
    | [_, _], hs => simp at hs; omega

/-- The output of `commaInt` on a non-empty string of digits: a first group of one to
three characters, then groups of three, each preceded by a comma. -/
theorem commaOut_structure (s : Str) (hne : s ≠ []) :
    ∃ (first : Str) (rest : List Str),
      commaOut (s.length % 3) 0 s = first ++ (rest.map (fun g => ',' :: g)).flatten ∧
      first ++ rest.flatten = s ∧ 1 ≤ first.length ∧ first.length ≤ 3 ∧
      ∀ g ∈ rest, g.length = 3 := by
  have hpos : 0 < s.length := List.length_pos.2 hne
  obtain h0 | h1 | h2 : s.length % 3 = 0 ∨ s.length % 3 = 1 ∨ s.length % 3 = 2 := by omega
  · match s, hpos, h0 with
    | a :: b :: c :: t, _, h0 =>
      simp only [List.length_cons] at h0
      obtain ⟨rest, r1, r2, r3⟩ := commaOut_groups 0 (by decide) (t.length / 3) t 3
        (by omega) (by decide) (by decide)
      refine ⟨[a, b, c], rest, ?_, by simp [r2], by simp, by simp, r3⟩
      have hl : (a :: b :: c :: t).length % 3 = 0 := by
        simp only [List.length_cons]; omega
      rw [hl, commaOut_cons, commaOut_cons, commaOut_cons, r1]
      simp
    | [_], _, h0 => simp at h0
    | [_, _], _, h0 => simp at h0
  · match s, hpos, h1 with
    | a :: t, _, h1 =>
      simp only [List.length_cons] at h1
      obtain ⟨rest, r1, r2, r3⟩ := commaOut_groups 1 (by decide) (t.length / 3) t 1
        (by omega) (by decide) (by decide)
      refine ⟨[a], rest, ?_, by simp [r2], by simp, by simp, r3⟩
      have hl : (a :: t).length % 3 = 1 := by
        simp only [List.length_cons]; omega
      rw [hl, commaOut_cons, r1]
      simp
  · match s, hpos, h2 with
    | a :: b :: t, _, h2 =>
      simp only [List.length_cons] at h2
      obtain ⟨rest, r1, r2, r3⟩ := commaOut_groups 2 (by decide) (t.length / 3) t 2
        (by omega) (by decide) (by decide)
      refine ⟨[a, b], rest, ?_, by simp [r2], by simp, by simp, r3⟩
      have hl : (a :: b :: t).length % 3 = 2 := by
        simp only [List.length_cons]; omega
      rw [hl, commaOut_cons, commaOut_cons, r1]
      simp
    | [_], _, h2 => simp at h2

theorem countLines_eq_linesTally (l : lang) (lines : List Str) :
    countLines l lines = linesTally l lines := by
  simp [countLines, linesTally, foldl_countStep]

theorem len_append (s t : Str) : len (s ++ t) = len s + len t := by
  simp [len]

theorem len_replicate (n : Nat) (a : Char) : len (List.replicate n a) = n * a.utf8Size := by
  induction n with
  | zero => simp [len]
  | succ n ih =>
    simp only [len] at ih ⊢
    rw [List.replicate_succ, List.map_cons, List.sum_cons, ih]
    rw [Nat.succ_mul, Nat.add_comm]

/-- With every line below the buffer limit the scanner returns every line of the file,
each with one terminal carriage return dropped. -/
theorem scanGo_eq_map (maxTokenSize : Nat) (content cur : Str)
    (h : ∀ line ∈ fileLinesGo content cur, len line < maxTokenSize) :
    scanGo maxTokenSize content cur = (fileLinesGo content cur).map dropCR := by
  induction content generalizing cur with
  | nil =>
    by_cases hc : cur.isEmpty = true
    · simp [scanGo, fileLinesGo, hc]
    · have hl : len cur.reverse < maxTokenSize := h _ (by simp [fileLinesGo, hc])
      have hl' : ¬ maxTokenSize ≤ len cur.reverse := by omega
      simp [scanGo, fileLinesGo, hc, hl']
  | cons c cs ih =>
    by_cases hn : c = '\n'
    · have hl : len cur.reverse < maxTokenSize := h _ (by simp [fileLinesGo, hn])
      have hl' : ¬ maxTokenSize ≤ len cur.reverse := by omega
      have hrest : ∀ line ∈ fileLinesGo cs [], len line < maxTokenSize :=
        fun line hline => h line (by simp [fileLinesGo, hn, hline])
      simp [scanGo, fileLinesGo, hn, hl', ih [] hrest]
    · have hrest : ∀ line ∈ fileLinesGo cs (c :: cur), len line < maxTokenSize :=
        fun line hline => h line (by simpa [fileLinesGo, hn] using hline)
      simp [scanGo, fileLinesGo, hn, ih (c :: cur) hrest]

/-- In every case the scanner returns an initial part of the lines of the file, each with
one terminal carriage return dropped. -/
theorem scanGo_prefix (maxTokenSize : Nat) (content cur : Str) :
    scanGo maxTokenSize content cur <+: (fileLinesGo content cur).map dropCR := by
  induction content generalizing cur with
  | nil =>
    by_cases hc : cur.isEmpty = true
    · simp [scanGo, fileLinesGo, hc]
    · by_cases hl : maxTokenSize ≤ len cur.reverse
      · simp [scanGo, fileLinesGo, hc, hl]
      · simp [scanGo, fileLinesGo, hc, hl]
  | cons c cs ih =>
    by_cases hn : c = '\n'
    · by_cases hl : maxTokenSize ≤ len cur.reverse
      · simp [scanGo, fileLinesGo, hn, hl]
      · simp only [scanGo, fileLinesGo, hn, hl, if_true, if_false, List.map_cons]
        exact (List.prefix_cons_inj _).2 (ih [])
    · simp only [scanGo, fileLinesGo, hn, if_false]
      exact ih (c :: cur)

theorem scanGo_line (maxTokenSize : Nat) (line rest cur : Str) (h : '\n' ∉ line) :
    scanGo maxTokenSize (line ++ '\n' :: rest) cur =
      if maxTokenSize ≤ len (cur.reverse ++ line) then []
      else dropCR (cur.reverse ++ line) :: scanGo maxTokenSize rest [] := by
  induction line generalizing cur with
  | nil => simp [scanGo]
  | cons c cs ih =>
    have hc : c ≠ '\n' := fun e => h (by simp [e])
    have hcs : '\n' ∉ cs := fun e => h (List.mem_cons_of_mem _ e)
    rw [List.cons_append, scanGo, if_neg hc, ih (c :: cur) hcs]
    simp

theorem fileLinesGo_line (line rest cur : Str) (h : '\n' ∉ line) :
    fileLinesGo (line ++ '\n' :: rest) cur = (cur.reverse ++ line) :: fileLinesGo rest [] := by
  induction line generalizing cur with
  | nil => simp [fileLinesGo]
  | cons c cs ih =>
    have hc : c ≠ '\n' := fun e => h (by simp [e])
    have hcs : '\n' ∉ cs := fun e => h (List.mem_cons_of_mem _ e)
    rw [List.cons_append, fileLinesGo, if_neg hc, ih (c :: cur) hcs]
    simp

/-- A non-blank line that is no ignore-if-only token and has a single field is counted. -/
theorem ignoreLine_word (l : lang) (line : Str) (hs : ∀ c ∈ line, isSpace c = false)
    (hne : line ≠ []) (ht : ∀ t ∈ l.IgnoreIfOnly, line ≠ t) : ignoreLine l line = false := by
  have hf : Fields line = [line] := by
    have := Fields_padded [] line [] (fun _ h => by cases h) hs hne (fun _ h => by cases h)
    simpa using this
  have hi : isIgnoreIfOnly l line = false := by
    unfold isIgnoreIfOnly
    rw [hf]
    split
    · rfl
    · simp only [Bool.or_self, List.any_eq_false, beq_iff_eq]
      exact fun t htm => ht t htm
  simp [ignoreLine, isEmpty, hf, isComment_false, hi]

theorem longLine_props :
    '\n' ∉ longLine ∧ len longLine = 70000 ∧ (∀ c ∈ longLine, isSpace c = false) ∧
    longLine ≠ [] ∧ longLine.length = 70000 := by
  have hmem : ∀ c ∈ longLine, c = 'a' := fun c hc => (List.mem_replicate.1 hc).2
  refine ⟨?_, ?_, ?_, ?_, ?_⟩
  · intro h
    have := hmem _ h
    exact absurd this (by decide)
  · unfold longLine
    rw [len_replicate]
    rfl
  · intro c hc
    rw [hmem c hc]
    decide
  · intro h
    have : longLine.length = 70000 := List.length_replicate _ _
    rw [h] at this
    exact absurd this (by decide)
  · exact List.length_replicate _ _

theorem scanLines_longLineFile : scanLines longLineFile = ["a := 1".toList] := by
  unfold scanLines longLineFile
  rw [scanGo_line _ _ _ _ (by decide)]
  have h6 : ¬ MaxScanTokenSize ≤ len (([] : Str).reverse ++ "a := 1".toList) := by decide
  rw [if_neg h6, scanGo_line _ _ _ _ longLine_props.1]
  have hl : MaxScanTokenSize ≤ len (([] : Str).reverse ++ longLine) := by
    rw [List.reverse_nil, List.nil_append, longLine_props.2.1]
    decide
  rw [if_pos hl]
  rfl

theorem fileLines_longLineFile :
    fileLines longLineFile = ["a := 1".toList, longLine, "b := 2".toList] := by
  unfold fileLines longLineFile
  rw [fileLinesGo_line _ _ _ (by decide), fileLinesGo_line _ _ _ longLine_props.1]
  have h3 : fileLinesGo ("b := 2".toList ++ ['\n']) [] = ["b := 2".toList] := by decide
  rw [h3]
  rfl

theorem linesTally_longLineFile :
    linesTally (getLang languages "Go".toList) (fileLines longLineFile) = (3, 70012) := by
  have hlong : ignoreLine (getLang languages "Go".toList) longLine = false := by
    apply ignoreLine_word _ _ longLine_props.2.2.1 longLine_props.2.2.2.1
    intro t ht he
    have hlen : ∀ u ∈ (getLang languages "Go".toList).IgnoreIfOnly, u.length ≤ 2 := by decide
    have := hlen t ht
    rw [← he, longLine_props.2.2.2.2] at this
    exact absurd this (by decide)
  have h1 : ignoreLine (getLang languages "Go".toList) "a := 1".toList = false := by decide
  have h3 : ignoreLine (getLang languages "Go".toList) "b := 2".toList = false := by decide
  have hf : (fileLines longLineFile).filter
      (fun x => !ignoreLine (getLang languages "Go".toList) x) =
      ["a := 1".toList, longLine, "b := 2".toList] := by
    rw [fileLines_longLineFile]
    simp only [List.filter_cons, h1, hlong, h3, Bool.not_false, if_true, List.filter_nil]
  unfold linesTally
  rw [hf]
  simp only [List.length_cons, List.length_nil, List.map_cons, List.map_nil, List.sum_cons,
    List.sum_nil, longLine_props.2.1]
  decide

theorem sum_set (f : Thread → Nat) (l : List Thread) (i : Nat) (a b : Thread)
    (h : l[i]? = some a) : ((l.set i b).map f).sum + f a = (l.map f).sum + f b := by
  induction l generalizing i with
  | nil => simp at h
  | cons x xs ih =>
    cases i with
    | zero =>
      simp only [List.getElem?_cons_zero, Option.some.injEq] at h
      subst h
      simp only [List.set_cons_zero, List.map_cons, List.sum_cons]
      omega
    | succ i =>
      simp only [List.getElem?_cons_succ] at h
      have := ih i h
      simp only [List.set_cons_succ, List.map_cons, List.sum_cons]
      omega

theorem execInstr_ok (sem : Nat) (t : Thread) (sem' : Nat) (t' : Thread) (hok : threadOk t)
    (h : execInstr sem t = some (sem', t')) :
    threadOk t' ∧ sem' + t.permits = sem + t'.permits ∧ (sem ≤ maxFd → sem' ≤ maxFd) := by
  rcases hok with rfl | rfl | rfl | rfl | rfl
  · by_cases hs : sem < maxFd
    · simp only [execInstr, hs, if_true, Option.some.injEq, Prod.mk.injEq] at h
      obtain ⟨rfl, rfl⟩ := h
      exact ⟨Or.inr (Or.inl rfl), by simp, fun _ => hs⟩
    · simp [execInstr, hs] at h
  · simp only [execInstr, Option.some.injEq, Prod.mk.injEq] at h
    obtain ⟨rfl, rfl⟩ := h
    exact ⟨Or.inr (Or.inr (Or.inl rfl)), rfl, fun hh => hh⟩
  · simp only [execInstr, Option.some.injEq, Prod.mk.injEq] at h
    obtain ⟨rfl, rfl⟩ := h
    exact ⟨Or.inr (Or.inr (Or.inr (Or.inl rfl))), rfl, fun hh => hh⟩
  · by_cases hs : 0 < sem
    · simp only [execInstr, hs, if_true, Option.some.injEq, Prod.mk.injEq] at h
      obtain ⟨rfl, rfl⟩ := h
      refine ⟨Or.inr (Or.inr (Or.inr (Or.inr rfl))), ?_, fun hh => by omega⟩
      simp only
      omega
    · simp [execInstr, hs] at h
  · simp [execInstr] at h

/-- The invariant of a run: every call is in one of the states of `threadOk`, the
channel holds as many elements as the calls hold permits, and at most `maxFd`. -/
theorem step_invariant (s s' : Conc) (e : Event) (h : step s e = some s')
    (hok : ∀ t ∈ s.threads, threadOk t) (hsem : heldPermits s = s.sem) (hcap : s.sem ≤ maxFd) :
    (∀ t ∈ s'.threads, threadOk t) ∧ heldPermits s' = s'.sem ∧ s'.sem ≤ maxFd := by
  cases e with
  | callCountDir =>
    simp only [step, Option.some.injEq] at h
    subst h
    refine ⟨?_, ?_, hcap⟩
    · intro t ht
      rcases List.mem_append.1 ht with ht | ht
      · exact hok t ht
      · rw [List.mem_singleton.1 ht]; exact Or.inl rfl
    · simp only [heldPermits, List.map_append, List.sum_append] at hsem ⊢
      simpa using hsem
  | goCountFile =>
    simp only [step, Option.some.injEq] at h
    subst h
    refine ⟨?_, ?_, hcap⟩
    · intro t ht
      rcases List.mem_append.1 ht with ht | ht
      · exact hok t ht
      · rw [List.mem_singleton.1 ht]; exact Or.inl rfl
    · simp only [heldPermits, List.map_append, List.sum_append] at hsem ⊢
      simpa using hsem
  | exec i =>
    simp only [step] at h
    cases hget : s.threads[i]? with
    | none => simp [hget] at h
    | some t =>
      rw [hget] at h
      simp only at h
      cases hex : execInstr s.sem t with
      | none => simp [hex] at h
      | some r =>
        obtain ⟨sem', t'⟩ := r
        rw [hex] at h
        simp only [Option.some.injEq] at h
        subst h
        have htm : t ∈ s.threads := List.getElem?_mem hget
        obtain ⟨k1, k2, k3⟩ := execInstr_ok s.sem t sem' t' (hok t htm) hex
        refine ⟨?_, ?_, k3 hcap⟩
        · intro x hx
          rcases List.mem_or_eq_of_mem_set hx with hx | hx
          · exact hok x hx
          · rw [hx]; exact k1
        · have hs := sum_set (fun t => t.permits) s.threads i t t' hget
          simp only [heldPermits] at hsem ⊢
          simp only at hs
          omega

theorem run_invariant (evs : List Event) (s s' : Conc) (h : run s evs = some s')
    (hok : ∀ t ∈ s.threads, threadOk t) (hsem : heldPermits s = s.sem) (hcap : s.sem ≤ maxFd) :
    (∀ t ∈ s'.threads, threadOk t) ∧ heldPermits s' = s'.sem ∧ s'.sem ≤ maxFd := by
  induction evs generalizing s with
  | nil =>
    simp only [run, Option.some.injEq] at h
    subst h
    exact ⟨hok, hsem, hcap⟩
  | cons e es ih =>
    simp only [run] at h
    cases hst : step s e with
    | none => simp [hst] at h
    | some s₁ =>
      rw [hst] at h
      obtain ⟨a, b, c⟩ := step_invariant s s₁ e hst hok hsem hcap
      exact ih s₁ h a b c

theorem handles_le_permits (l : List Thread) (h : ∀ t ∈ l, t.handles ≤ t.permits) :
    (l.map (fun t => t.handles)).sum ≤ (l.map (fun t => t.permits)).sum := by
  induction l with
  | nil => simp
  | cons x xs ih =>
    have h1 := h x (List.mem_cons_self _ _)
    have h2 := ih (fun t ht => h t (List.mem_cons_of_mem _ ht))
    simp only [List.map_cons, List.sum_cons]
    omega

theorem threadOk_bounds (t : Thread) (h : threadOk t) :
    t.handles ≤ t.permits ∧ t.permits ≤ 1 := by
  rcases h with rfl | rfl | rfl | rfl | rfl <;> simp

/-! ## Claims -/

/-- C1 (the code at the failing inputs): the line `// foo` under the Go rule and the
line `# foo` under the Python rule start with a comment prefix of their language, yet
`ignoreLine` returns `false` and the scanning loop counts each as one line of six
bytes. -/
theorem comment_line_is_counted :
    HasPrefix "//".toList "//".toList = true ∧
    Fields "// foo".toList = ["//".toList, "foo".toList] ∧
    (getLang languages "Go".toList).Comment = ["//".toList] ∧
    ignoreLine (getLang languages "Go".toList) "// foo".toList = false ∧
    countLines (getLang languages "Go".toList) ["// foo".toList] = (1, 6) ∧
    (getLang languages "Python".toList).Comment = ["#".toList] ∧
    ignoreLine (getLang languages "Python".toList) "# foo".toList = false ∧
    countLines (getLang languages "Python".toList) ["# foo".toList] = (1, 5) := by
  decide

/-- C2 (the claim refuted as stated): on the three-line file `longLineFile`, whose second
line has 70000 bytes, the lines that make up the file give 3 counted lines and 70012
characters, but the scanner stops at the second line and the loop of `countFile` ends
with 1 line and 6 characters; and on the file `x := 1\r\n` the newline-delimited line has
7 bytes while the loop counts 6. So the tally is not, for every file, the tally over the
lines that make up the file. -/
theorem tally_not_over_file_lines :
    fileLines longLineFile = ["a := 1".toList, longLine, "b := 2".toList] ∧
    linesTally (getLang languages "Go".toList) (fileLines longLineFile) = (3, 70012) ∧
    scanLines longLineFile = ["a := 1".toList] ∧
    scanTally (getLang languages "Go".toList) longLineFile = (1, 6) ∧
    fileLines "x := 1\r\n".toList = ["x := 1\r".toList] ∧
    linesTally (getLang languages "Go".toList) (fileLines "x := 1\r\n".toList) = (1, 7) ∧
    scanTally (getLang languages "Go".toList) "x := 1\r\n".toList = (1, 6) ∧
    ¬ (∀ (l : lang) (content : Str), scanTally l content = linesTally l (fileLines content)) := by
  have h2 := linesTally_longLineFile
  have h4 : scanTally (getLang languages "Go".toList) longLineFile = (1, 6) := by
    unfold scanTally
    rw [scanLines_longLineFile]
    decide
  refine ⟨fileLines_longLineFile, h2, scanLines_longLineFile, h4, by decide, by decide,
    by decide, ?_⟩
  intro hall
  have := hall (getLang languages "Go".toList) longLineFile
  rw [h2, h4] at this
  exact absurd this (by decide)

/-- C2 (amended): for every rule and every file in which every line has fewer than
`MaxScanTokenSize = 65536` bytes before its newline, the scanner returns every line of
the file with one terminal carriage return dropped, and the loop of `countFile` ends with
`lineCount` equal to the number of those lines on which `ignoreLine` is false and
`charCount` equal to the sum of the byte lengths of exactly those lines (all other white
space included, neither the newline nor the dropped carriage return). -/
theorem scanTally_eq (l : lang) (content : Str)
    (h : ∀ line ∈ fileLines content, len line < MaxScanTokenSize) :
    MaxScanTokenSize = 65536 ∧
    scanLines content = (fileLines content).map dropCR ∧
    scanTally l content =
      ((((fileLines content).map dropCR).filter (fun x => !ignoreLine l x)).length,
       ((((fileLines content).map dropCR).filter (fun x => !ignoreLine l x)).map len).sum) := by
  have hs : scanLines content = (fileLines content).map dropCR :=
    scanGo_eq_map MaxScanTokenSize content [] h
  refine ⟨rfl, hs, ?_⟩
  unfold scanTally
  rw [hs, countLines_eq_linesTally]
  rfl

/-- Witness for C2: a Go file of four lines, the first ended by a carriage return and a
newline, the last without a newline. -/
theorem scanTally_eq_witness :
    scanLines "  x := 1 \r\n\x7d\n\ny".toList =
      ["  x := 1 ".toList, "\x7d".toList, [], "y".toList] ∧
    scanTally (getLang languages "Go".toList) "  x := 1 \r\n\x7d\n\ny".toList = (2, 10) :=
  ⟨by decide,
   ((scanTally_eq (getLang languages "Go".toList) "  x := 1 \r\n\x7d\n\ny".toList
      (by decide)).2.2).trans (by decide)⟩

/-- C3 (the code at the failing input): the line `} // trailing` splits into three
fields and is not itself an ignore-if-only token, yet `isIgnoreIfOnly` returns `true`
under the Go rule, whose ignore set is `commonIgnore`, and the line is not counted. -/
theorem trailing_line_is_ignored :
    Fields "\x7d // trailing".toList = ["\x7d".toList, "//".toList, "trailing".toList] ∧
    "\x7d // trailing".toList ∉ commonIgnore ∧
    (getLang languages "Go".toList).IgnoreIfOnly = commonIgnore ∧
    isIgnoreIfOnly (getLang languages "Go".toList) "\x7d // trailing".toList = true ∧
    countLines (getLang languages "Go".toList) ["\x7d // trailing".toList] = (0, 0) := by
  decide

/-- C4: for every rule, a line whose fields are a single token of the rule's
ignore-if-only set is ignored and leaves the tally unchanged, whatever white space
surrounds the token; and under every rule whose ignore-if-only set includes
`commonIgnore`, as all built-in rules that set one do, a file made of the line `}`
tallies zero lines and zero characters. -/
theorem single_ignore_token_not_counted :
    (∀ (l : lang) (line tok : Str), Fields line = [tok] → tok ∈ l.IgnoreIfOnly →
      ignoreLine l line = true ∧ ∀ acc, countStep l acc line = acc) ∧
    (∀ (l : lang) (ws₁ tok ws₂ : Str), tok ∈ l.IgnoreIfOnly → tok ≠ [] →
      (∀ c ∈ ws₁, isSpace c = true) → (∀ c ∈ tok, isSpace c = false) →
      (∀ c ∈ ws₂, isSpace c = true) →
      ignoreLine l (ws₁ ++ tok ++ ws₂) = true ∧
      countLines l [ws₁ ++ tok ++ ws₂] = (0, 0)) ∧
    (∀ l : lang, commonIgnore ⊆ l.IgnoreIfOnly →
      ignoreLine l "\x7d".toList = true ∧ countLines l ["\x7d".toList] = (0, 0)) ∧
    (∀ e ∈ languages, e.2.IgnoreIfOnly ≠ [] → commonIgnore ⊆ e.2.IgnoreIfOnly) := by
  have key : ∀ (l : lang) (line tok : Str), Fields line = [tok] → tok ∈ l.IgnoreIfOnly →
      ignoreLine l line = true := by
    intro l line tok hf ht
    have hne : l.IgnoreIfOnly ≠ [] := List.ne_nil_of_mem ht
    have : isIgnoreIfOnly l line = true := by
      unfold isIgnoreIfOnly
      rw [hf]
      simp only [List.length_eq_zero, beq_iff_eq, hne, if_false, List.any_eq_true]
      exact ⟨tok, ht, by simp⟩
    simp [ignoreLine, this]
  refine ⟨?_, ?_, ?_, ?_⟩
  · intro l line tok hf ht
    have h := key l line tok hf ht
    exact ⟨h, fun acc => by simp [countStep, h]⟩
  · intro l ws₁ tok ws₂ ht hne h₁ htok h₂
    have h := key l _ tok (Fields_padded ws₁ tok ws₂ h₁ htok hne h₂) ht
    exact ⟨h, by simp only [countLines, List.foldl_cons, List.foldl_nil, countStep, h, if_true]⟩
  · intro l hsub
    have h := key l "\x7d".toList "\x7d".toList (by decide) (hsub (by decide))
    exact ⟨h, by simp only [countLines, List.foldl_cons, List.foldl_nil, countStep, h, if_true]⟩
  · decide

/-- Witness for C4: the line `  }  ` under the Go rule. -/
theorem single_ignore_token_not_counted_witness :
    ignoreLine (getLang languages "Go".toList) "  \x7d  ".toList = true ∧
    countLines (getLang languages "Go".toList) ["  \x7d  ".toList] = (0, 0) :=
  single_ignore_token_not_counted.2.1 (getLang languages "Go".toList)
    "  ".toList "\x7d".toList "  ".toList (by decide) (by decide) (by decide) (by decide)
    (by decide)

/-- C5: for every registry, every order in which the loop may visit it and every path,
`isSourceFile` returns `(true, L)` only if `L` is a key of the registry and one of the
`Filetypes` of its rule is a suffix of the path, and it returns `(false, "")` exactly when
no extension of any registered rule is a suffix of the path; there is no third outcome. -/
theorem isSourceFile_spec (languages ord : Registry) (hnd : NodupKeys languages)
    (hperm : ord.Perm languages) (filePath : Str) :
    (∀ L, isSourceFile ord filePath = (true, L) →
      L ∈ languages.map Prod.fst ∧
      ∃ suf ∈ (getLang languages L).Filetypes, HasSuffix filePath suf = true ∧ suf <:+ filePath) ∧
    (isSourceFile ord filePath = (false, []) ↔
      ∀ e ∈ languages, ∀ suf ∈ e.2.Filetypes, ¬ suf <:+ filePath) ∧
    ((∃ L, isSourceFile ord filePath = (true, L)) ∨ isSourceFile ord filePath = (false, [])) := by
  refine ⟨?_, ?_, ?_⟩
  · intro L h
    obtain ⟨l, hl, hm⟩ := isSourceFile_true ord filePath L h
    have hl' : (L, l) ∈ languages := hperm.mem_iff.1 hl
    refine ⟨List.mem_map_of_mem Prod.fst hl', ?_⟩
    rw [getLang_of_mem languages hnd L l hl']
    obtain ⟨suf, hs, hsuf⟩ := List.any_eq_true.1 hm
    exact ⟨suf, hs, hsuf, (HasSuffix_iff _ _).1 hsuf⟩
  · rw [isSourceFile_false_iff]
    constructor
    · intro h e he suf hs hsuf
      have := h e (hperm.mem_iff.2 he)
      simp only [hasExt, List.any_eq_false] at this
      exact this suf hs ((HasSuffix_iff _ _).2 hsuf)
    · intro h e he
      simp only [hasExt, List.any_eq_false]
      intro suf hs hsuf
      exact h e (hperm.mem_iff.1 he) suf hs ((HasSuffix_iff _ _).1 hsuf)
  · by_cases h : ∃ e ∈ ord, hasExt e.2 filePath = true
    · exact Or.inl (isSourceFile_some ord filePath h)
    · refine Or.inr ((isSourceFile_false_iff ord filePath).2 ?_)
      intro e he
      cases hm : hasExt e.2 filePath with
      | false => rfl
      | true => exact absurd ⟨e, he, hm⟩ h

/-- Witness for C5: the built-in registry visited in reverse order, on `/a/b.go`. -/
theorem isSourceFile_spec_witness :
    isSourceFile languages.reverse "/a/b.go".toList = (true, "Go".toList) ∧
    "Go".toList ∈ languages.map Prod.fst ∧
    ∃ suf ∈ (getLang languages "Go".toList).Filetypes,
      HasSuffix "/a/b.go".toList suf = true ∧ suf <:+ "/a/b.go".toList :=
  ⟨by decide,
   (isSourceFile_spec languages languages.reverse (by unfold NodupKeys; decide)
      (List.reverse_perm _) "/a/b.go".toList).1 "Go".toList (by decide)⟩

/-- C6: in the built-in registry no path has as a suffix an extension of two different
languages; hence `isSourceFile` returns the same pair for a path whatever the order in
which the registry is visited, and so does the decision of `countDir` on each entry. -/
theorem builtin_classification_deterministic :
    (∀ e₁ ∈ languages, ∀ e₂ ∈ languages, ∀ s₁ ∈ e₁.2.Filetypes, ∀ s₂ ∈ e₂.2.Filetypes,
      ∀ p : Str, s₁ <:+ p → s₂ <:+ p → e₁.1 = e₂.1) ∧
    (∀ ord₁ ord₂ : Registry, ord₁.Perm languages → ord₂.Perm languages → ∀ p : Str,
      isSourceFile ord₁ p = isSourceFile ord₂ p) ∧
    (∀ ord₁ ord₂ : Registry, ord₁.Perm languages → ord₂.Perm languages →
      ∀ (noTest : Bool) (join : Str → Str → Str) (dirPath : Str) (f : FileInfo),
      countDirEntry languages ord₁ noTest join dirPath f =
        countDirEntry languages ord₂ noTest join dirPath f) := by
  refine ⟨?_, isSourceFile_builtin_order, ?_⟩
  · intro e₁ h₁ e₂ h₂ s₁ hs₁ s₂ hs₂ p q₁ q₂
    exact builtin_ext_disjoint e₁ e₂ h₁ h₂ p
      (List.any_eq_true.2 ⟨s₁, hs₁, (HasSuffix_iff _ _).2 q₁⟩)
      (List.any_eq_true.2 ⟨s₂, hs₂, (HasSuffix_iff _ _).2 q₂⟩)
  · intro ord₁ ord₂ h₁ h₂ noTest join dirPath f
    simp only [countDirEntry, isSourceFile_builtin_order ord₁ ord₂ h₁ h₂]

/-- Witness for C6: the source order and its reverse agree on `/src/a.scss`. -/
theorem builtin_classification_deterministic_witness :
    isSourceFile languages "/src/a.scss".toList =
      isSourceFile languages.reverse "/src/a.scss".toList :=
  builtin_classification_deterministic.2.1 languages languages.reverse (List.Perm.refl _)
    (List.reverse_perm _) "/src/a.scss".toList

/-- C7: for every directory path, file name and value of `noTest`, the loop of `countDir`
starts `countFile` on a non-directory entry with language `L` if and only if
`isSourceFile` classifies the joined path to `L`, the directory path contains none of
`L`'s `DirectoryIgnore` markers as a substring, the file name contains none of `L`'s
`FilenameIgnore` markers, and, when `noTest` is set, the directory path contains none of
`L`'s `TestDirname` markers and the file name none of `L`'s `TestFilename` markers; a
non-directory entry starts nothing else. -/
theorem countDir_schedules_iff (languages ord : Registry) (noTest : Bool)
    (join : Str → Str → Str) (dirPath name L : Str) :
    (countDirEntry languages ord noTest join dirPath ⟨name, false⟩ =
        some (Task.file (join dirPath name) L) ↔
      isSourceFile ord (join dirPath name) = (true, L) ∧
      (∀ m ∈ (getLang languages L).DirectoryIgnore, ¬ m <:+: dirPath) ∧
      (∀ m ∈ (getLang languages L).FilenameIgnore, ¬ m <:+: name) ∧
      (noTest = true →
        (∀ m ∈ (getLang languages L).TestDirname, ¬ m <:+: dirPath) ∧
        (∀ m ∈ (getLang languages L).TestFilename, ¬ m <:+: name))) ∧
    (∀ t, countDirEntry languages ord noTest join dirPath ⟨name, false⟩ = some t →
      t = Task.file (join dirPath name) (isSourceFile ord (join dirPath name)).2) := by
  simp only [countDirEntry]
  generalize isSourceFile ord (join dirPath name) = r
  obtain ⟨b, L'⟩ := r
  have hd : ∀ K, ignoreDir languages noTest dirPath K = false ↔
      (∀ m ∈ (getLang languages K).DirectoryIgnore, ¬ m <:+: dirPath) ∧
      (noTest = true → ∀ m ∈ (getLang languages K).TestDirname, ¬ m <:+: dirPath) := by
    intro K
    cases noTest <;> simp [ignoreDir, Contains_iff]
  have hf : ∀ K, ignoreFile languages noTest name K = false ↔
      (∀ m ∈ (getLang languages K).FilenameIgnore, ¬ m <:+: name) ∧
      (noTest = true → ∀ m ∈ (getLang languages K).TestFilename, ¬ m <:+: name) := by
    intro K
    cases noTest <;> simp [ignoreFile, Contains_iff]
  constructor
  · constructor
    · intro h
      cases b with
      | false => simp at h
      | true =>
        cases hD : ignoreDir languages noTest dirPath L' with
        | true => simp [hD] at h
        | false =>
          cases hF : ignoreFile languages noTest name L' with
          | true => simp [hD, hF] at h
          | false =>
            simp only [hD, hF, Bool.not_true, Bool.or_self, Bool.false_eq_true, if_false,
              Option.some.injEq, Task.file.injEq, true_and] at h
            subst h
            have d := (hd L').1 hD
            have f := (hf L').1 hF
            exact ⟨rfl, d.1, f.1, fun hn => ⟨d.2 hn, f.2 hn⟩⟩
    · rintro ⟨hr, h1, h2, h3⟩
      simp only [Prod.mk.injEq] at hr
      obtain ⟨rfl, rfl⟩ := hr
      have hD := (hd L').2 ⟨h1, fun hn => (h3 hn).1⟩
      have hF := (hf L').2 ⟨h2, fun hn => (h3 hn).2⟩
      simp [hD, hF]
  · intro t h
    by_cases hc : (!b || ignoreDir languages noTest dirPath L' ||
        ignoreFile languages noTest name L') = true
    · simp [hc] at h
    · simp only [hc, if_false, Bool.false_eq_true, Option.some.injEq] at h
      exact h.symm

/-- Witness for C7: `main.go` in `/w` is started as a Go file. -/
theorem countDir_schedules_iff_witness :
    countDirEntry languages languages true (fun d n => d ++ '/' :: n) "/w".toList
        ⟨"main.go".toList, false⟩ = some (Task.file "/w/main.go".toList "Go".toList) :=
  (countDir_schedules_iff languages languages true (fun d n => d ++ '/' :: n) "/w".toList
      "main.go".toList "Go".toList).1.2
    ⟨by decide, by decide, by decide, fun _ => ⟨by decide, by decide⟩⟩

/-- C8: with `noTest` set, `ignoreDir` is true for every directory path that contains one
of the language's `TestDirname` markers and `ignoreFile` is true for every file name
that contains one of its `TestFilename` markers; with `noTest` unset, `ignoreDir`,
`ignoreFile` and the decision of `countDir` are those obtained for the registry whose
rules have empty `TestDirname` and `TestFilename` sets, under either value of `noTest`. -/
theorem test_markers_only_with_noTest :
    (∀ (languages : Registry) (L dirPath m : Str), m ∈ (getLang languages L).TestDirname →
      m <:+: dirPath → ignoreDir languages true dirPath L = true) ∧
    (∀ (languages : Registry) (L name m : Str), m ∈ (getLang languages L).TestFilename →
      m <:+: name → ignoreFile languages true name L = true) ∧
    (∀ (languages : Registry) (b : Bool) (L dirPath name : Str),
      ignoreDir languages false dirPath L =
        ignoreDir (withoutTestMarkers languages) b dirPath L ∧
      ignoreFile languages false name L =
        ignoreFile (withoutTestMarkers languages) b name L) ∧
    (∀ (languages ord : Registry) (b : Bool) (join : Str → Str → Str) (dirPath : Str)
      (f : FileInfo),
      countDirEntry languages ord false join dirPath f =
        countDirEntry (withoutTestMarkers languages) (withoutTestMarkers ord) b join dirPath f) := by
  refine ⟨?_, ?_, ?_, ?_⟩
  · intro languages L dirPath m hm hin
    have : (getLang languages L).TestDirname.any (fun x => Contains dirPath x) = true :=
      List.any_eq_true.2 ⟨m, hm, (Contains_iff _ _).2 hin⟩
    simp [ignoreDir, this]
  · intro languages L name m hm hin
    have : (getLang languages L).TestFilename.any (fun x => Contains name x) = true :=
      List.any_eq_true.2 ⟨m, hm, (Contains_iff _ _).2 hin⟩
    simp [ignoreFile, this]
  · intro languages b L dirPath name
    exact ⟨ignoreDir_false_eq languages b dirPath L, ignoreFile_false_eq languages b name L⟩
  · intro languages ord b join dirPath f
    simp only [countDirEntry, isSourceFile_withoutTestMarkers,
      ← ignoreDir_false_eq languages b, ← ignoreFile_false_eq languages b]

/-- Witness for C8: a Ruby file under `/app/spec` is skipped with `noTest` and started
without it. -/
theorem test_markers_only_with_noTest_witness :
    ignoreDir languages true "/app/spec".toList "Ruby".toList = true ∧
    ignoreDir languages false "/app/spec".toList "Ruby".toList = false ∧
    countDirEntry languages languages false (fun d n => d ++ '/' :: n) "/app/spec".toList
        ⟨"a.rb".toList, false⟩ = some (Task.file "/app/spec/a.rb".toList "Ruby".toList) :=
  ⟨test_markers_only_with_noTest.1 languages "Ruby".toList "/app/spec".toList "spec".toList
      (by decide) ((Contains_iff _ _).1 (by decide)),
   by decide, by decide⟩

/-- C9: for every registry, every order of the visit and every name `k`,
`removeOtherLangs(k)` leaves exactly the entries whose lower-cased key equals the
lower-cased `k`, each with its rule unchanged, and nothing else. -/
theorem removeOtherLangs_spec (lr : Char → Char) (languages ord : Registry)
    (hperm : ord.Perm languages) (k : Str) :
    removeOtherLangs lr languages ord k =
      languages.filter (fun e => ToLower lr e.1 == ToLower lr k) ∧
    (∀ n l, (n, l) ∈ removeOtherLangs lr languages ord k ↔
      (n, l) ∈ languages ∧ ToLower lr n = ToLower lr k) ∧
    (∀ n, ToLower lr n = ToLower lr k →
      getLang (removeOtherLangs lr languages ord k) n = getLang languages n) ∧
    (NodupKeys languages → NodupKeys (removeOtherLangs lr languages ord k)) := by
  have h := removeOtherLangs_eq_filter lr languages ord hperm k
  refine ⟨h, ?_, ?_, ?_⟩
  · intro n l
    rw [h]
    simp [List.mem_filter]
  · intro n hn
    rw [h]
    exact getLang_filter languages (fun s => ToLower lr s == ToLower lr k) n (by simp [hn])
  · intro hnd
    rw [h]
    unfold NodupKeys at hnd ⊢
    exact (List.Sublist.map Prod.fst (List.filter_sublist _)).nodup hnd

/-- Witness for C9: the built-in registry visited in reverse order, restricted to
`RUBY`. -/
theorem removeOtherLangs_spec_witness :
    removeOtherLangs asciiLower languages languages.reverse "RUBY".toList =
      languages.filter (fun e => ToLower asciiLower e.1 == ToLower asciiLower "RUBY".toList) :=
  (removeOtherLangs_spec asciiLower languages languages.reverse (List.reverse_perm _)
    "RUBY".toList).1

/-- C10: on the built-in registry, for every name `X` whose lower-casing equals that of
a built-in language `L`, `removeOtherLangs(X)` leaves the single entry of `L`; then
`isSourceFile` returns `(true, L)` for exactly the paths it classified to `L` before and
`(false, "")` for every other path, and the loop that initialises `counters` creates the
key `L` and no other. `main` does call `removeOtherLangs` for such an `X`. -/
theorem restrict_builtin (lr : Char → Char)
    (hlr : ∀ c : Char, c.toNat < 128 → lr c = asciiLower c) (ord : Registry)
    (hperm : ord.Perm languages) (X L : Str) (hL : L ∈ languages.map Prod.fst)
    (hX : ToLower lr X = ToLower lr L) :
    removeOtherLangs lr languages ord X = [(L, getLang languages L)] ∧
    restrictRegistry lr languages ord X = removeOtherLangs lr languages ord X ∧
    (∀ ord₁ ord₀ : Registry, ord₁.Perm (removeOtherLangs lr languages ord X) →
      ord₀.Perm languages → ∀ p : Str,
      (isSourceFile ord₁ p = (true, L) ↔ isSourceFile ord₀ p = (true, L)) ∧
      (isSourceFile ord₀ p ≠ (true, L) → isSourceFile ord₁ p = (false, []))) ∧
    (∀ ord₁ : Registry, ord₁.Perm (removeOtherLangs lr languages ord X) →
      initCounters ord₁ = [(L, {})]) := by
  have hreg := removeOtherLangs_builtin lr hlr ord hperm X L hL hX
  obtain ⟨e, he, rfl⟩ := List.mem_map.1 hL
  obtain ⟨L, l⟩ := e
  have hl : getLang languages L = l := getLang_of_mem languages builtin_nodup L l he
  simp only at hreg hX ⊢
  rw [hreg, hl]
  have hXne : X ≠ [] := by
    intro h0
    subst h0
    have hlen : (ToLower lr L).length = 0 := by rw [← hX]; rfl
    have hLne : ∀ e ∈ languages, e.1 ≠ [] := by decide
    have : L = [] := by
      simpa [ToLower] using hlen
    exact hLne (L, l) he this
  refine ⟨rfl, ?_, ?_, ?_⟩
  · simp [restrictRegistry, hXne, hreg, hl]
  · intro ord₁ ord₀ h₁ h₀ p
    have h₁' : ord₁ = [(L, l)] := List.perm_singleton.1 h₁
    subst h₁'
    have hiff : isSourceFile ord₀ p = (true, L) ↔ hasExt l p = true := by
      rw [isSourceFile_builtin_iff ord₀ h₀ p L]
      constructor
      · rintro ⟨l', hl', hm⟩
        have : l' = l := by
          rw [← getLang_of_mem languages builtin_nodup L l' hl', hl]
        exact this ▸ hm
      · intro hm
        exact ⟨l, he, hm⟩
    cases hm : hasExt l p with
    | true =>
      have a : isSourceFile [(L, l)] p = (true, L) := by
        rw [isSourceFile_cons, hm]; rfl
      have b := hiff.2 hm
      exact ⟨⟨fun _ => b, fun _ => a⟩, fun hne => absurd b hne⟩
    | false =>
      have a : isSourceFile [(L, l)] p = (false, []) := by
        rw [isSourceFile_cons, hm]; rfl
      have b : isSourceFile ord₀ p ≠ (true, L) := by
        intro h
        have := hiff.1 h
        rw [hm] at this
        cases this
      exact ⟨⟨fun h => (by rw [a] at h; cases h), fun h => absurd h b⟩, fun _ => a⟩
  · intro ord₁ h₁
    have h₁' : ord₁ = [(L, l)] := List.perm_singleton.1 h₁
    subst h₁'
    simp [initCounters, setKey]

/-- Witness for C10: `-lang ruby` on the built-in registry visited in reverse order. -/
theorem restrict_builtin_witness :
    removeOtherLangs asciiLower languages languages.reverse "ruby".toList =
      [("Ruby".toList, getLang languages "Ruby".toList)] :=
  (restrict_builtin asciiLower (fun _ _ => rfl) languages.reverse (List.reverse_perm _)
    "ruby".toList "Ruby".toList (by decide) (by decide)).1

/-- C11: when the name given to `removeOtherLangs` matches no key of the registry
case-insensitively, the function still returns and leaves the registry empty; then
`isSourceFile` returns `(false, "")` for every path, the loop of `countDir` starts no
`countFile`, and the loop that initialises `counters` creates no entry. -/
theorem removeOtherLangs_no_match (lr : Char → Char) (languages ord : Registry)
    (hperm : ord.Perm languages) (k : Str)
    (hno : ∀ e ∈ languages, ToLower lr e.1 ≠ ToLower lr k) :
    removeOtherLangs lr languages ord k = [] ∧
    (∀ ord₁ : Registry, ord₁.Perm (removeOtherLangs lr languages ord k) →
      (∀ p : Str, isSourceFile ord₁ p = (false, [])) ∧
      initCounters ord₁ = [] ∧
      ∀ (noTest : Bool) (join : Str → Str → Str) (dirPath name : Str),
        countDirEntry (removeOtherLangs lr languages ord k) ord₁ noTest join dirPath
          ⟨name, false⟩ = none) := by
  have h : removeOtherLangs lr languages ord k = [] := by
    rw [removeOtherLangs_eq_filter lr languages ord hperm k, List.filter_eq_nil_iff]
    intro e he
    simpa using hno e he
  refine ⟨h, ?_⟩
  intro ord₁ h₁
  rw [h] at h₁ ⊢
  have h₁' : ord₁ = [] := List.Perm.eq_nil h₁
  subst h₁'
  refine ⟨fun _ => rfl, rfl, ?_⟩
  intro noTest join dirPath name
  simp [countDirEntry, isSourceFile]

/-- Witness for C11: `-lang cobol` on the built-in registry. -/
theorem removeOtherLangs_no_match_witness :
    removeOtherLangs asciiLower languages languages.reverse "cobol".toList = [] :=
  (removeOtherLangs_no_match asciiLower languages languages.reverse (List.reverse_perm _)
    "cobol".toList (by decide)).1

/-- C12: starting from the zero totals that `main` creates for every known language,
after the update of `countFile` has been applied for every element of a list of
per-file results, the total of each language is the sum of the line counts, the sum of
the character counts and the number of the results of that language; a language without
results keeps `(0, 0, 0)`, and the keys are those of the registry and of the results. -/
theorem foldResults_totals (ord : Registry) (rs : List (Str × Nat × Nat)) (n : Str) :
    getCount (foldResults (initCounters ord) rs) n =
      { LineCount := ((rs.filter (fun r => r.1 == n)).map (fun r => r.2.1)).sum
        CharCount := ((rs.filter (fun r => r.1 == n)).map (fun r => r.2.2)).sum
        FileCount := (rs.filter (fun r => r.1 == n)).length } ∧
    (n ∉ rs.map Prod.fst → getCount (foldResults (initCounters ord) rs) n = {}) ∧
    (n ∈ (foldResults (initCounters ord) rs).map Prod.fst ↔
      n ∈ ord.map Prod.fst ∨ n ∈ rs.map Prod.fst) ∧
    (∀ (languages : Registry) (fs : List (Str × List Str)),
      foldFiles languages (initCounters ord) fs =
        foldResults (initCounters ord)
          (fs.map (fun f => (f.1, countLines (getLang languages f.1) f.2)))) := by
  have h1 : getCount (foldResults (initCounters ord) rs) n = tallyFor rs n := by
    rw [getCount_foldResults, (initCounters_zero ord).1 n]
    simp [tallyFor]
  refine ⟨h1, ?_, ?_, fun languages fs => foldFiles_eq languages _ fs⟩
  · intro hn
    rw [h1]
    have : rs.filter (fun r => r.1 == n) = [] := by
      rw [List.filter_eq_nil_iff]
      intro r hr hrn
      exact hn (List.mem_map.2 ⟨r, hr, by simpa using hrn⟩)
    simp [tallyFor, this]
  · rw [keys_foldResults, (initCounters_zero ord).2.2.1 n]

/-- Witness for C12: two Go results and one C result. -/
theorem foldResults_totals_witness :
    getCount (foldResults (initCounters languages)
        [("Go".toList, 3, 40), ("C".toList, 1, 2), ("Go".toList, 5, 9)]) "Go".toList =
      { LineCount := 8, CharCount := 49, FileCount := 2 } :=
  (foldResults_totals languages
    [("Go".toList, 3, 40), ("C".toList, 1, 2), ("Go".toList, 5, 9)] "Go".toList).1

/-- C13: for every list of per-file results and every permutation of it, folding the
results with the update of `countFile` in either order gives maps with the same keys
and the same total under every key; when the keys of the results are already keys of
the starting map, as for the map that `main` initialises, the two maps are equal. -/
theorem foldResults_perm (c : Counters) (rs rs' : List (Str × Nat × Nat))
    (h : rs.Perm rs') :
    (∀ n, getCount (foldResults c rs) n = getCount (foldResults c rs') n) ∧
    (∀ n, n ∈ (foldResults c rs).map Prod.fst ↔ n ∈ (foldResults c rs').map Prod.fst) ∧
    (NodupKeys c → (∀ r ∈ rs, r.1 ∈ c.map Prod.fst) →
      foldResults c rs = foldResults c rs') := by
  have hv : ∀ n, getCount (foldResults c rs) n = getCount (foldResults c rs') n := by
    intro n
    rw [getCount_foldResults, getCount_foldResults, tallyFor_perm rs rs' h n]
  refine ⟨hv, ?_, ?_⟩
  · intro n
    rw [keys_foldResults, keys_foldResults, (h.map Prod.fst).mem_iff]
  · intro hnd hin
    have hin' : ∀ r ∈ rs', r.1 ∈ c.map Prod.fst := fun r hr => hin r (h.mem_iff.2 hr)
    have k1 := keyList_foldResults c rs hnd hin
    have k2 := keyList_foldResults c rs' hnd hin'
    exact counters_ext _ _ k1.2 (k1.1.trans k2.1.symm) hv

/-- Witness for C13: three results folded in two orders into the map of `main`. -/
theorem foldResults_perm_witness :
    foldResults (initCounters languages)
        [("Go".toList, 3, 40), ("C".toList, 1, 2), ("Go".toList, 5, 9)] =
      foldResults (initCounters languages)
        [("Go".toList, 5, 9), ("Go".toList, 3, 40), ("C".toList, 1, 2)] :=
  (foldResults_perm (initCounters languages)
    [("Go".toList, 3, 40), ("C".toList, 1, 2), ("Go".toList, 5, 9)]
    [("Go".toList, 5, 9), ("Go".toList, 3, 40), ("C".toList, 1, 2)]
    (by decide)).2.2 (initCounters_zero languages).2.2.2 (by decide)

/-- C14: for every rule and every file whose lines all consist of white space only (the
empty line and the file without lines included), the scanning loop tallies zero lines
and zero characters, and `countFile` adds `(0, 0, 1)` to the total of the language and
leaves every other total unchanged. -/
theorem blank_file_counts_one_file (languages : Registry) (c : Counters) (langName : Str)
    (lines : List Str) (h : ∀ line ∈ lines, ∀ ch ∈ line, isSpace ch = true) :
    (∀ l : lang, countLines l lines = (0, 0)) ∧
    getCount (countFile languages c langName lines) langName =
      { LineCount := (getCount c langName).LineCount + 0
        CharCount := (getCount c langName).CharCount + 0
        FileCount := (getCount c langName).FileCount + 1 } ∧
    (∀ n, n ≠ langName → getCount (countFile languages c langName lines) n = getCount c n) := by
  refine ⟨fun l => countLines_blank l lines h, ?_, ?_⟩
  · simp only [countFile, countLines_blank _ lines h, getCount_updateCounters, if_true]
  · intro n hn
    simp only [countFile, getCount_updateCounters, hn, if_false]

/-- Witness for C14: a Go file of three blank lines, counted into the map of `main`. -/
theorem blank_file_counts_one_file_witness :
    getCount (countFile languages (initCounters languages) "Go".toList
        ["  ".toList, [], "\t".toList]) "Go".toList =
      { LineCount := 0, CharCount := 0, FileCount := 1 } :=
  (blank_file_counts_one_file languages (initCounters languages) "Go".toList
    ["  ".toList, [], "\t".toList] (by decide)).2.1

/-- C15: for every rule and every file, the `lineCount` computed by the scanning loop of
`countFile` is at most the number of lines of the file. -/
theorem lineCount_le_lines (l : lang) (lines : List Str) :
    (countLines l lines).1 ≤ lines.length := by
  rw [countLines, foldl_countStep]
  simp only [Nat.zero_add]
  exact List.length_filter_le _ _

/-- C16: in every state of every run, the number of open file-system handles (directory
listings of `countDir` and files of `countFile`) is at most the number of permits out,
which is the number of elements of `fdSem` and at most `maxFd = 10`; every call holds a
handle only while it holds a permit, the handle being opened after the send on `fdSem`
and closed before the receive. -/
theorem open_handles_bounded (evs : List Event) (s : Conc)
    (h : run initConc evs = some s) :
    openHandles s ≤ maxFd ∧ maxFd = 10 ∧
    openHandles s ≤ heldPermits s ∧ heldPermits s = s.sem ∧ s.sem ≤ maxFd ∧
    (∀ t ∈ s.threads, t.handles ≤ t.permits ∧ t.permits ≤ 1 ∧ threadOk t) := by
  have hinit : ∀ t ∈ initConc.threads, threadOk t := by
    intro t ht
    rw [List.mem_singleton.1 ht]
    exact Or.inl rfl
  obtain ⟨a, b, c⟩ := run_invariant evs initConc s h hinit rfl (by decide)
  have hle : openHandles s ≤ heldPermits s :=
    handles_le_permits s.threads (fun t ht => (threadOk_bounds t (a t ht)).1)
  refine ⟨by omega, rfl, hle, b, c, ?_⟩
  intro t ht
  exact ⟨(threadOk_bounds t (a t ht)).1, (threadOk_bounds t (a t ht)).2, a t ht⟩

/-- Witness for C16: `countDir` and one `countFile` both have their handle open; and with
ten `countFile` calls holding the ten permits the send of `countDir` is not enabled. -/
theorem open_handles_bounded_witness :
    openHandles
      { sem := 2,
        threads := [{ code := [Instr.closeHandle, Instr.release], handles := 1, permits := 1 },
                    { code := [Instr.closeHandle, Instr.release], handles := 1, permits := 1 }] }
      ≤ maxFd ∧
    run initConc (List.replicate 10 Event.goCountFile ++
      [Event.exec 1, Event.exec 2, Event.exec 3, Event.exec 4, Event.exec 5, Event.exec 6,
       Event.exec 7, Event.exec 8, Event.exec 9, Event.exec 10, Event.exec 0]) = none :=
  ⟨(open_handles_bounded
      [Event.exec 0, Event.goCountFile, Event.exec 1, Event.exec 0, Event.exec 1] _
      (by decide)).1, by decide⟩

/-- C17: `isComment` returns `false` for every rule and every line, so `ignoreLine` is
true exactly when the line is blank or `isIgnoreIfOnly` holds, and the line `// foo`
under the Go rule is counted as one line of code. -/
theorem isComment_never_fires :
    (∀ (l : lang) (line : Str), isComment l line = false) ∧
    (∀ (l : lang) (line : Str),
      ignoreLine l line = (isEmpty line || isIgnoreIfOnly l line)) ∧
    isComment (getLang languages "Go".toList) "// foo".toList = false ∧
    ignoreLine (getLang languages "Go".toList) "// foo".toList = false ∧
    (countLines (getLang languages "Go".toList) ["// foo".toList]).1 = 1 := by
  refine ⟨isComment_false, ?_, isComment_false _ _, by decide, by decide⟩
  intro l line
  simp [ignoreLine, isComment_false]

/-- C18: for every rule and every file the tally of the scanning loop has
`charCount >= lineCount`, every counted line having at least one byte; hence, from the
zero totals of `main`, every running total has `CharCount >= LineCount` after any
sequence of `countFile` updates. -/
theorem charCount_ge_lineCount :
    (∀ (l : lang) (line : Str), ignoreLine l line = false → 1 ≤ len line) ∧
    (∀ (l : lang) (lines : List Str), (countLines l lines).1 ≤ (countLines l lines).2) ∧
    (∀ (languages ord : Registry) (fs : List (Str × List Str)) (n : Str),
      (getCount (foldFiles languages (initCounters ord) fs) n).LineCount ≤
        (getCount (foldFiles languages (initCounters ord) fs) n).CharCount) := by
  refine ⟨len_pos_of_counted, countLines_line_le_char, ?_⟩
  intro languages ord fs n
  apply foldFiles_line_le_char
  intro m
  rw [(initCounters_zero ord).1 m]

/-- Witness for C18: the one-byte line `x` is counted with one character. -/
theorem charCount_ge_lineCount_witness : 1 ≤ len "x".toList :=
  charCount_ge_lineCount.1 (getLang languages "Go".toList) "x".toList (by decide)

/-- C19: in every state of `counters` reached from the zero totals of `main` by the
updates of `countFile`, every language with `LineCount != 0` has `FileCount >= 1` and
`LineCount > 0`, so both divisions of `printResult` have a non-zero divisor and
`printResult` does not panic, in whatever order it visits the map. -/
theorem printResult_no_zero_division (ord : Registry) (rs : List (Str × Nat × Nat)) :
    (∀ e ∈ foldResults (initCounters ord) rs,
      e.2.LineCount ≠ 0 → 1 ≤ e.2.FileCount ∧ 0 < e.2.LineCount) ∧
    (∀ ord₁ : Counters, ord₁.Perm (foldResults (initCounters ord) rs) →
      (printResult ord₁).isSome = true ∧
      ∀ e ∈ ord₁, e.2.LineCount ≠ 0 →
        (goDiv e.2.CharCount e.2.LineCount).isSome = true ∧
        (goDiv e.2.LineCount e.2.FileCount).isSome = true) := by
  have hinv : ∀ e ∈ foldResults (initCounters ord) rs,
      e.2.LineCount ≠ 0 → 1 ≤ e.2.FileCount := by
    apply foldResults_entries
    intro e he hne
    rw [(initCounters_zero ord).2.1 e he] at hne
    exact absurd rfl hne
  refine ⟨fun e he hne => ⟨hinv e he hne, Nat.pos_of_ne_zero hne⟩, ?_⟩
  intro ord₁ h₁
  have hinv₁ : ∀ e ∈ ord₁, e.2.LineCount ≠ 0 → 1 ≤ e.2.FileCount :=
    fun e he => hinv e (h₁.mem_iff.1 he)
  constructor
  · have := printLoop_isSome ord₁ hinv₁ ([], 0, 0, 0)
    unfold printResult
    cases hp : printLoop ord₁ ([], 0, 0, 0) with
    | none => rw [hp] at this; cases this
    | some r => rfl
  · intro e he hne
    have hf := hinv₁ e he hne
    have hf' : e.2.FileCount ≠ 0 := by omega
    simp [goDiv, hne, hf']

/-- Witness for C19: the report after two Go results and one C result. -/
theorem printResult_no_zero_division_witness :
    (printResult (foldResults (initCounters languages)
      [("Go".toList, 3, 40), ("C".toList, 1, 2), ("Go".toList, 0, 0)])).isSome = true :=
  ((printResult_no_zero_division languages
    [("Go".toList, 3, 40), ("C".toList, 1, 2), ("Go".toList, 0, 0)]).2 _
    (List.Perm.refl _)).1

/-- C20: for every non-negative `n`, `commaInt(n)` is the decimal representation of `n`
with commas as thousands separators: deleting the commas gives the decimal digits of
`n`, the result neither starts nor ends with a comma, and it consists of a first group
of one to three digits followed by groups of exactly three digits, each preceded by a
comma. -/
theorem commaInt_spec (n : Nat) :
    String.mk (Itoa (n : Int)) = Nat.repr n ∧
    (∀ c ∈ Itoa (n : Int), c ∈ digitChars) ∧
    (commaInt (n : Int)).filter (fun c => c != ',') = Itoa (n : Int) ∧
    (commaInt (n : Int)).head? ≠ some ',' ∧
    (commaInt (n : Int)).getLast? ≠ some ',' ∧
    commaInt (n : Int) ≠ [] ∧
    (∃ (first : Str) (rest : List Str),
      commaInt (n : Int) = first ++ (rest.map (fun g => ',' :: g)).flatten ∧
      first ++ rest.flatten = Itoa (n : Int) ∧
      1 ≤ first.length ∧ first.length ≤ 3 ∧ ∀ g ∈ rest, g.length = 3) ∧
    commaInt 1234567 = "1,234,567".toList := by
  have hd := Itoa_digits n
  have hne := Itoa_ne_nil n
  have hcomma : ∀ c ∈ Itoa (n : Int), c ≠ ',' := fun c hc => (digitChars_props c (hd c hc)).2
  have heq := commaInt_eq n
  refine ⟨rfl, hd, ?_, ?_, ?_, ?_, ?_, by decide⟩
  · rw [heq]
    exact commaOut_filter _ _ hcomma 0
  · rw [heq]
    cases hs : Itoa (n : Int) with
    | nil => exact absurd hs hne
    | cons c cs =>
      have hc : c ≠ ',' := hcomma c (by rw [hs]; exact List.mem_cons_self _ _)
      rw [commaOut_cons]
      simpa using hc
  · rw [heq, commaOut_getLast _ _ hne 0]
    intro hl
    obtain ⟨ys, hys⟩ := List.getLast?_eq_some_iff.1 hl
    exact hcomma ',' (by rw [hys]; simp) rfl
  · rw [heq]
    cases hs : Itoa (n : Int) with
    | nil => exact absurd hs hne
    | cons c cs =>
      rw [commaOut_cons]
      simp
  · rw [heq]
    exact commaOut_structure _ hne

end Sloc
